import Mathlib

/-!
# Verification of the patchkit specification against its source

This file shallowly embeds the core of the `patchkit` repository
(semantic patch model in `src/patch.rs`, `src/parse.rs`, `src/ed.rs`,
and the lossless editing front end in `src/edit/`) and proves or
refutes the specification claims about it.

Bytes are modelled as `Nat` (values 0..255 in practice), byte strings
as `List Nat`, and Rust's `&str` inputs as `List Char`.  Fallible Rust
code returns `Option`/`Except`; a Rust panic (assertion failure,
unchecked index, usize underflow in debug profile) is modelled by a
dedicated `panic` constructor or by `Option.none`, as documented at
each definition.
-/

namespace Patchkit

/-- A byte string: bytes are unbounded naturals (only 0..255 occur). -/
abbrev ByteStr := List Nat

/-- Helper to build concrete byte strings from string literals. -/
def bytes (s : String) : ByteStr := s.toList.map Char.toNat

/-- `splitlines` from `src/parse.rs`: split a byte string into lines,
preserving the terminating `\n` of every line; a final line without a
newline is returned as-is; empty input gives no lines. -/
def splitlinesGo (acc : ByteStr) : ByteStr → List ByteStr
  | [] => if acc.isEmpty then [] else [acc]
  | c :: rest =>
    if c = 10 then (acc ++ [c]) :: splitlinesGo [] rest
    else splitlinesGo (acc ++ [c]) rest

/-- `splitlines(data)` from `src/parse.rs`. -/
def splitlines (data : ByteStr) : List ByteStr := splitlinesGo [] data

/-- The `NO_NL` marker line from `src/parse.rs`. -/
def NO_NL : ByteStr := bytes "\\ No newline at end of file\n"

/-- `iter_lines_handle_nl` from `src/parse.rs`: folds the `NO_NL`
marker into the previous line by dropping that line's trailing
newline.  `none` models the two panic paths of the source (marker with
no previous line, or previous line not ending in a newline). -/
def iterLinesHandleNlGo (last? : Option ByteStr) : List ByteStr → Option (List ByteStr)
  | [] =>
    match last? with
    | some l => some [l]
    | none => some []
  | l :: rest =>
    if l = NO_NL then
      match last? with
      | some last =>
        if last.getLast? = some 10 then iterLinesHandleNlGo (some last.dropLast) rest
        else none
      | none => none
    else
      match last? with
      | some last => (iterLinesHandleNlGo (some l) rest).map (last :: ·)
      | none => iterLinesHandleNlGo (some l) rest

/-- `iter_lines_handle_nl` from `src/parse.rs`. -/
def iterLinesHandleNl (lines : List ByteStr) : Option (List ByteStr) :=
  iterLinesHandleNlGo none lines

/-- `HunkLine` from `src/patch.rs`. -/
inductive HunkLine : Type
  | ContextLine (contents : ByteStr)
  | InsertLine (contents : ByteStr)
  | RemoveLine (contents : ByteStr)
  deriving DecidableEq, Repr

namespace HunkLine

/-- `HunkLine::char` from `src/patch.rs`. -/
def char : HunkLine → Nat
  | ContextLine _ => 32
  | InsertLine _ => 43
  | RemoveLine _ => 45

/-- `HunkLine::contents` from `src/patch.rs`. -/
def contents : HunkLine → ByteStr
  | ContextLine b => b
  | InsertLine b => b
  | RemoveLine b => b

/-- `HunkLine::as_bytes` from `src/patch.rs`. -/
def asBytes (l : HunkLine) : ByteStr :=
  let terminator := if (l.contents).getLast? = some 10 then [] else 10 :: NO_NL
  l.char :: l.contents ++ terminator

/-- `HunkLine::parse_line` from `src/patch.rs`; `none` models the
`MalformedLine` error. -/
def parseLine (line : ByteStr) : Option HunkLine :=
  match line with
  | 10 :: _ => some (ContextLine line)
  | 32 :: rest => some (ContextLine rest)
  | 43 :: rest => some (InsertLine rest)
  | 45 :: rest => some (RemoveLine rest)
  | _ => none

end HunkLine

/-- `Hunk` from `src/patch.rs`. -/
structure Hunk : Type where
  origPos : Nat
  origRange : Nat
  modPos : Nat
  modRange : Nat
  tail : Option ByteStr
  lines : List HunkLine
  deriving DecidableEq, Repr

/-- Decimal digits of a natural number, as ASCII bytes; mirrors what
Rust's `format!("{}", n)` prints for a `usize`. -/
def natToDigitsGo : Nat → ByteStr → ByteStr
  | n, acc => if h : n < 10 then (48 + n) :: acc else natToDigitsGo (n / 10) ((48 + n % 10) :: acc)
  termination_by n _ => n
  decreasing_by exact Nat.div_lt_self (by omega) (by omega)

/-- Decimal rendering of a natural number. -/
def natToDigits (n : Nat) : ByteStr := natToDigitsGo n []

/-- Is a byte an ASCII digit? -/
def isDigitByte (c : Nat) : Bool := 48 ≤ c && c ≤ 57

/-- Numeric value of a digit string. -/
def digitsVal (s : ByteStr) : Nat := s.foldl (fun a c => a * 10 + (c - 48)) 0

/-- `usize::from_str` as used by `parse_range` in `src/patch.rs`:
accepts an optional leading `+`, then one or more ASCII digits, and
fails on overflow past `2^64`. -/
def parseUsize (s : ByteStr) : Option Nat :=
  let s' := match s with
    | c :: rest => if c = 43 then rest else s
    | [] => s
  if s'.isEmpty then none
  else if s'.all isDigitByte then
    let v := digitsVal s'
    if v < 2 ^ 64 then some v else none
  else none

/-- `[u8]::split` on a single separator byte, as used by
`Hunk::from_header` and `parse_range` in `src/patch.rs`. -/
def splitOnByte (b : Nat) : ByteStr → List ByteStr
  | [] => [[]]
  | c :: rest =>
    if c = b then [] :: splitOnByte b rest
    else
      match splitOnByte b rest with
      | [] => [[c]]
      | p :: ps => (c :: p) :: ps

/-- Split a byte string at the first occurrence of `b`: returns the
part before (which does not contain `b`) and the part after. -/
def splitAtByte (b : Nat) : ByteStr → Option (ByteStr × ByteStr)
  | [] => none
  | c :: rest =>
    if c = b then some ([], rest)
    else (splitAtByte b rest).map (fun p => (c :: p.1, p.2))

/-- `parse_range` from `src/patch.rs`: split on `,`; a missing second
component defaults to `1`; components beyond the second are ignored. -/
def parseRange (textrange : ByteStr) : Option (Nat × Nat) :=
  let tmp := splitOnByte 44 textrange
  let pair : ByteStr × ByteStr :=
    match tmp with
    | [p] => (p, bytes "1")
    | p :: b :: _ => (p, b)
    | [] => ([], bytes "1")
  match parseUsize pair.1, parseUsize pair.2 with
  | some pos, some range => some (pos, range)
  | _, _ => none

/-- The match of the hunk-header regex `\@\@ ([^@]*) \@\@( (.*))?\n`
(Rust `regex::bytes`, leftmost-first semantics): returns the first
capture group and the optional third (tail) group.  The scan tries
every start position; at a candidate `@@ ` the `[^@]*` group must end
exactly one byte before the first following `@`, preceded by a space
and followed by a second `@`; the optional tail requires a space and a
later newline, otherwise a newline must follow immediately. -/
def fromHeaderTryAt (l : ByteStr) : Option (ByteStr × Option ByteStr) :=
  match l with
  | 64 :: 64 :: 32 :: afterOpen =>
    match splitAtByte 64 afterOpen with
    | none => none
    | some (pre, post) =>
      match post with
      | 64 :: afterClose =>
        if pre.getLast? = some 32 then
          match afterClose with
          | 32 :: tailArea =>
            match splitAtByte 10 tailArea with
            | some (t, _) => some (pre.dropLast, some t)
            | none => none
          | 10 :: _ => some (pre.dropLast, none)
          | _ => none
        else none
      | _ => none
  | _ => none

/-- Leftmost match of the hunk-header regex over the whole line. -/
def fromHeaderMatch : ByteStr → Option (ByteStr × Option ByteStr)
  | [] => none
  | c :: rest =>
    match fromHeaderTryAt (c :: rest) with
    | some r => some r
    | none => fromHeaderMatch rest

/-- Result of `Hunk::from_header`: success, a `MalformedHunkHeader`
error (message and offending line), or a panic.  The panic arm models
the unchecked `orig[0]` / `modi[0]` indexing in the source, which
panics when a range component between the `@@` sentinels is empty. -/
inductive HeaderResult : Type
  | ok (h : Hunk)
  | err (msg : String) (line : ByteStr)
  | panic
  deriving DecidableEq, Repr

/-- `Hunk::from_header` from `src/patch.rs`. -/
def Hunk.fromHeader (line : ByteStr) : HeaderResult :=
  match fromHeaderMatch line with
  | none => .err "Does not match format." line
  | some (g1, tail) =>
    match splitOnByte 32 g1 with
    | [orig, modi] =>
      match orig with
      | [] => .panic
      | o :: orest =>
        if o ≠ 45 then .err "Positions don't start with + or -." line
        else
          match modi with
          | [] => .panic
          | m :: mrest =>
            if m ≠ 43 then .err "Positions don't start with + or -." line
            else
              match parseRange orest with
              | none => .err "Original range is not a number." line
              | some (origPos, origRange) =>
                match parseRange mrest with
                | none => .err "Modified range is not a number." line
                | some (modPos, modRange) =>
                  .ok ⟨origPos, origRange, modPos, modRange, tail, []⟩
    | _ => .err "Does not match format." line

/-- `Hunk::range_str` from `src/patch.rs`. -/
def Hunk.rangeStr (pos range : Nat) : ByteStr :=
  if range = 1 then natToDigits pos
  else natToDigits pos ++ [44] ++ natToDigits range

/-- Is the byte a UTF-8 continuation byte (`0x80..=0xBF`)? -/
def isCont (b : Nat) : Bool := 0x80 ≤ b && b ≤ 0xBF

/-- The UTF-8 encoding of U+FFFD, the replacement character. -/
def utf8Rep : ByteStr := [0xEF, 0xBF, 0xBD]

/-- `String::from_utf8_lossy` at the byte level: well-formed UTF-8
sequences pass through verbatim and each maximal ill-formed subpart
(per the standard library's validation ranges, including the `0xE0`,
`0xED`, `0xF0` and `0xF4` second-byte restrictions and truncated
sequences at the end of input) is replaced by one U+FFFD.  Fuel is
structural so concrete runs evaluate; each step consumes at least one
byte, so `length + 1` fuel always suffices. -/
def utf8LossyGo : Nat → ByteStr → ByteStr
  | 0, _ => []
  | _ + 1, [] => []
  | fuel + 1, b0 :: r0 =>
    if b0 < 0x80 then b0 :: utf8LossyGo fuel r0
    else if 0xC2 ≤ b0 && b0 ≤ 0xDF then
      match r0 with
      | [] => utf8Rep
      | b1 :: r1 =>
        if isCont b1 then b0 :: b1 :: utf8LossyGo fuel r1
        else utf8Rep ++ utf8LossyGo fuel r0
    else if 0xE0 ≤ b0 && b0 ≤ 0xEF then
      match r0 with
      | [] => utf8Rep
      | b1 :: r1 =>
        if (if b0 = 0xE0 then 0xA0 ≤ b1 && b1 ≤ 0xBF
            else if b0 = 0xED then 0x80 ≤ b1 && b1 ≤ 0x9F
            else isCont b1) then
          match r1 with
          | [] => utf8Rep
          | b2 :: r2 =>
            if isCont b2 then b0 :: b1 :: b2 :: utf8LossyGo fuel r2
            else utf8Rep ++ utf8LossyGo fuel r1
        else utf8Rep ++ utf8LossyGo fuel r0
    else if 0xF0 ≤ b0 && b0 ≤ 0xF4 then
      match r0 with
      | [] => utf8Rep
      | b1 :: r1 =>
        if (if b0 = 0xF0 then 0x90 ≤ b1 && b1 ≤ 0xBF
            else if b0 = 0xF4 then 0x80 ≤ b1 && b1 ≤ 0x8F
            else isCont b1) then
          match r1 with
          | [] => utf8Rep
          | b2 :: r2 =>
            if isCont b2 then
              match r2 with
              | [] => utf8Rep
              | b3 :: r3 =>
                if isCont b3 then b0 :: b1 :: b2 :: b3 :: utf8LossyGo fuel r3
                else utf8Rep ++ utf8LossyGo fuel r2
            else utf8Rep ++ utf8LossyGo fuel r1
        else utf8Rep ++ utf8LossyGo fuel r0
    else utf8Rep ++ utf8LossyGo fuel r0

/-- `String::from_utf8_lossy` over a whole byte string. -/
def utf8Lossy (t : ByteStr) : ByteStr := utf8LossyGo (t.length + 1) t

/-- `Hunk::get_header` from `src/patch.rs`: the space-prefixed tail
is passed through `String::from_utf8_lossy` before being formatted
into the header. -/
def Hunk.getHeader (h : Hunk) : ByteStr :=
  let tailStr := match h.tail with
    | some t => utf8Lossy (32 :: t)
    | none => []
  bytes "@@ -" ++ Hunk.rangeStr h.origPos h.origRange ++
    bytes " +" ++ Hunk.rangeStr h.modPos h.modRange ++
    bytes " @@" ++ tailStr ++ [10]

/-- `Hunk::as_bytes` from `src/patch.rs`: header followed by the
serialized lines. -/
def Hunk.asBytes (h : Hunk) : ByteStr :=
  h.getHeader ++ (h.lines.map HunkLine.asBytes).flatten

/-- `Hunk::shift_to_mod_lines` from `src/patch.rs` (the loop body). -/
def shiftToModLinesGo (pos : Nat) : Nat → Int → List HunkLine → Option Int
  | _, shift, [] => some shift
  | position, shift, l :: rest =>
    match l with
    | .InsertLine _ =>
      if position > pos then some (shift + 1) else shiftToModLinesGo pos position (shift + 1) rest
    | .RemoveLine _ =>
      if position = pos then none
      else if position + 1 > pos then some (shift - 1)
      else shiftToModLinesGo pos (position + 1) (shift - 1) rest
    | .ContextLine _ =>
      if position + 1 > pos then some shift
      else shiftToModLinesGo pos (position + 1) shift rest

/-- `Hunk::shift_to_mod_lines` from `src/patch.rs`. -/
def Hunk.shiftToModLines (h : Hunk) (pos : Nat) : Option Int :=
  shiftToModLinesGo pos (h.origPos - 1) 0 h.lines

/-- `Hunk::shift_to_mod` from `src/patch.rs`. -/
def Hunk.shiftToMod (h : Hunk) (pos : Nat) : Option Int :=
  if pos < h.origPos - 1 then some 0
  else if pos > h.origPos + h.origRange then some ((h.modRange : Int) - (h.origRange : Int))
  else h.shiftToModLines pos

/-- `PatchConflict` from `src/parse.rs`. -/
structure PatchConflict : Type where
  lineNo : Nat
  origLine : ByteStr
  patchLine : ByteStr
  deriving DecidableEq, Repr

/-- The lines of the head hunk, drained into the working stack
(`PatchedIter` keeps the current hunk's lines separately). -/
def headLines : List Hunk → List HunkLine
  | [] => []
  | h :: _ => h.lines

/-- Sum of the line counts of a hunk list (termination measure). -/
def sumLines (hs : List Hunk) : Nat := (hs.map (fun h => h.lines.length)).sum

/-- `PatchedIter::next` from `src/parse.rs`, driven to completion with
the short-circuiting `collect::<Result<Vec<_>, PatchConflict>>` used
by `UnifiedPatch::apply_exact`: `origLines` is the remaining original
lines, `stack` the remaining lines of the current hunk, `hunks` the
hunk list whose head is the current hunk, `n` the 1-based line
counter. -/
def patchedGo : List ByteStr → List HunkLine → List Hunk → Nat →
    Except PatchConflict (List ByteStr)
  | origLines, _, [], _ => .ok origLines
  | origLines, stack, h :: rest, n =>
    if n < h.origPos then
      match origLines with
      | l :: ls => (patchedGo ls stack (h :: rest) (n + 1)).map (l :: ·)
      | [] => .error ⟨n + 1, [], []⟩
    else
      match stack with
      | .ContextLine b :: s' =>
        match origLines with
        | ol :: ls =>
          if ol ≠ b then .error ⟨n, ol, b⟩
          else (patchedGo ls s' (h :: rest) (n + 1)).map (b :: ·)
        | [] => .error ⟨n, [], b⟩
      | .InsertLine b :: s' => (patchedGo origLines s' (h :: rest) n).map (b :: ·)
      | .RemoveLine b :: s' =>
        match origLines with
        | ol :: ls =>
          if ol ≠ b then .error ⟨n, ol, b⟩
          else patchedGo ls s' (h :: rest) (n + 1)
        | [] => .error ⟨n, [], b⟩
      | [] => patchedGo origLines (headLines rest) rest n
  termination_by origLines stack hunks _ =>
    origLines.length + stack.length + hunks.length + sumLines hunks.tail
  decreasing_by
    all_goals simp [sumLines, headLines]
    any_goals omega
    cases rest
    all_goals simp [sumLines, headLines]
    all_goals omega

theorem patchedGo_nil_hunks (origLines : List ByteStr) (stack : List HunkLine) (n : Nat) :
    patchedGo origLines stack [] n = .ok origLines := by
  rw [patchedGo.eq_def]

theorem patchedGo_cons_eq (origLines : List ByteStr) (stack : List HunkLine)
    (h : Hunk) (rest : List Hunk) (n : Nat) :
    patchedGo origLines stack (h :: rest) n =
      (if n < h.origPos then
        match origLines with
        | l :: ls => (patchedGo ls stack (h :: rest) (n + 1)).map (l :: ·)
        | [] => .error ⟨n + 1, [], []⟩
      else
        match stack with
        | .ContextLine b :: s' =>
          match origLines with
          | ol :: ls =>
            if ol ≠ b then .error ⟨n, ol, b⟩
            else (patchedGo ls s' (h :: rest) (n + 1)).map (b :: ·)
          | [] => .error ⟨n, [], b⟩
        | .InsertLine b :: s' => (patchedGo origLines s' (h :: rest) n).map (b :: ·)
        | .RemoveLine b :: s' =>
          match origLines with
          | ol :: ls =>
            if ol ≠ b then .error ⟨n, ol, b⟩
            else patchedGo ls s' (h :: rest) (n + 1)
          | [] => .error ⟨n, [], b⟩
        | [] => patchedGo origLines (headLines rest) rest n) := by
  rw [patchedGo.eq_def]

/-- `iter_exact_patched_from_hunks` from `src/parse.rs`, collected
into a single `Result` as `UnifiedPatch::apply_exact` does. -/
def iterExactPatchedFromHunks (origLines : List ByteStr) (hunks : List Hunk) :
    Except PatchConflict (List ByteStr) :=
  patchedGo origLines (headLines hunks) hunks 1

/-- `ApplyError` from `src/patch.rs`; the `Conflict` payload keeps the
structured conflict whose rendering the source stores as a string. -/
inductive ApplyError : Type
  | Conflict (c : PatchConflict)
  | Unapplyable
  deriving DecidableEq, Repr

/-- `UnifiedPatch` from `src/patch.rs`. -/
structure UnifiedPatch : Type where
  origName : ByteStr
  origTs : Option ByteStr
  modName : ByteStr
  modTs : Option ByteStr
  hunks : List Hunk
  deriving DecidableEq, Repr

/-- `UnifiedPatch::apply_exact` from `src/patch.rs`. -/
def UnifiedPatch.applyExact (p : UnifiedPatch) (orig : ByteStr) :
    Except ApplyError ByteStr :=
  match iterExactPatchedFromHunks (splitlines orig) p.hunks with
  | .ok lines => .ok lines.flatten
  | .error e => .error (.Conflict e)

/-- `BinaryPatch` from `src/patch.rs`. -/
structure BinaryPatch : Type where
  oldName : ByteStr
  newName : ByteStr
  deriving DecidableEq, Repr

/-- `BinaryPatch::apply_exact` from `src/patch.rs`. -/
def BinaryPatch.applyExact (_ : BinaryPatch) (_orig : ByteStr) :
    Except ApplyError ByteStr :=
  .error .Unapplyable

/-! ## Ed-script model (`src/ed.rs`) -/

/-- `EdHunk` from `src/ed.rs`. -/
inductive EdHunk : Type
  | Add (start stop : Nat) (added : ByteStr)
  | Remove (start stop : Nat) (expected : ByteStr)
  | Change (start stop : Nat) (expected added : ByteStr)
  deriving DecidableEq, Repr

/-- The structured content of the error strings produced by
`EdPatch::apply` in `src/ed.rs`. -/
inductive EdError : Type
  | missing (line : Nat)
  | mismatch (line : Nat) (existing expected : ByteStr)
  deriving DecidableEq, Repr

/-- Result of `EdPatch::apply`: success, an error string (structured
here), or a panic (failed `assert_eq!`, usize underflow at position 0,
or out-of-bounds `Vec::insert`). -/
inductive EdResult (α : Type) : Type
  | ok (a : α)
  | err (e : EdError)
  | panic
  deriving DecidableEq, Repr

/-- Sequencing for `EdResult`. -/
def EdResult.bind {α β : Type} : EdResult α → (α → EdResult β) → EdResult β
  | .ok a, f => f a
  | .err e, _ => .err e
  | .panic, _ => .panic

/-- The removal phase of the `EdPatch::apply` loop body (runs for
`Remove` and `Change` hunks): asserts `start == end`, looks up
`data[start - 1]` (position 0 underflows: panic), compares it with the
expected payload, and removes it. -/
def edRemovePhase (start stop : Nat) (expected : ByteStr) (data : List ByteStr) :
    EdResult (List ByteStr) :=
  if start ≠ stop then .panic
  else if start = 0 then .panic
  else
    match data.get? (start - 1) with
    | none => .err (.missing start)
    | some existing =>
      if existing ≠ expected then .err (.mismatch start existing expected)
      else .ok (data.eraseIdx (start - 1))

/-- The insertion phase of the `EdPatch::apply` loop body (runs for
`Add` and `Change` hunks): asserts `start == end` and calls
`data.insert(start - 1, added)`; position 0 underflows and an index
past the end is out of bounds (both panic). -/
def edInsertPhase (start stop : Nat) (added : ByteStr) (data : List ByteStr) :
    EdResult (List ByteStr) :=
  if start ≠ stop then .panic
  else if start = 0 then .panic
  else if data.length < start - 1 then .panic
  else .ok (data.insertIdx (start - 1) added)

/-- `EdPatch` from `src/ed.rs`. -/
structure EdPatch : Type where
  hunks : List EdHunk
  deriving DecidableEq, Repr

/-- The hunk loop of `EdPatch::apply` from `src/ed.rs`. -/
def edApplyGo : List ByteStr → List EdHunk → EdResult (List ByteStr)
  | data, [] => .ok data
  | data, h :: rest =>
    match h with
    | .Add s e added => (edInsertPhase s e added data).bind (edApplyGo · rest)
    | .Remove s e expected => (edRemovePhase s e expected data).bind (edApplyGo · rest)
    | .Change s e expected added =>
      ((edRemovePhase s e expected data).bind (edInsertPhase s e added ·)).bind
        (edApplyGo · rest)

/-- `EdPatch::apply` from `src/ed.rs`: apply all hunks in textual
order to the line array and concatenate the result. -/
def EdPatch.apply (p : EdPatch) (data : List ByteStr) : EdResult ByteStr :=
  match edApplyGo data p.hunks with
  | .ok lines => .ok lines.flatten
  | .err e => .err e
  | .panic => .panic

/-! ## Multi-file stream splitter (`src/parse.rs`) -/

/-- `FileEntry` from `src/parse.rs`. -/
inductive FileEntry : Type
  | Junk (lines : List ByteStr)
  | Meta (line : ByteStr)
  | Patch (lines : List ByteStr)
  deriving DecidableEq, Repr

/-- `Error` from `src/parse.rs`. -/
inductive ParseError : Type
  | BinaryFiles (oldName newName : ByteStr)
  | PatchSyntax (msg : String) (line : ByteStr)
  | MalformedPatchHeader (msg : String) (line : ByteStr)
  | MalformedHunkHeader (msg : String) (line : ByteStr)
  deriving DecidableEq, Repr

/-- Does `BINARY_FILES_RE` (`^Binary files (.+) and (.+) differ`)
match the line?  Equivalent to the existence of a decomposition
`"Binary files " X " and " Y " differ" …` with `X`, `Y` nonempty and
newline-free. -/
def binaryFilesMatch (line : ByteStr) : Bool :=
  (bytes "Binary files ").isPrefixOf line &&
  (let rest := line.drop 13
   (List.range (rest.length + 1)).any fun i =>
     decide (0 < i) && (rest.take i).all (fun c => c ≠ 10) &&
     (bytes " and ").isPrefixOf (rest.drop i) &&
     (let after := (rest.drop i).drop 5
      (List.range (after.length + 1)).any fun j =>
        decide (0 < j) && (after.take j).all (fun c => c ≠ 10) &&
        (bytes " differ").isPrefixOf (after.drop j)))

/-- `FileEntryIter::entry` from `src/parse.rs`. -/
def feEntry (saved : List ByteStr) (dirty : Bool) : Option FileEntry :=
  if saved.isEmpty then none
  else if dirty then some (.Junk saved) else some (.Patch saved)

/-- `FileEntryIter::next` from `src/parse.rs`, driven to completion.
The state is (remaining input, saved_lines, is_dirty, orig_range,
mod_range).  `none` models a panic: inside a hunk body, the unguarded
`orig_range -= 1` / `mod_range -= 1` usize subtractions overflow when
the corresponding remaining count is already zero (and a panicking
`Hunk::from_header` is propagated). -/
def iterFilePatchGo : List ByteStr → List ByteStr → Bool → Nat → Nat →
    Option (List (Except ParseError FileEntry))
  | [], saved, dirty, _, _ =>
    some (match feEntry saved dirty with
          | some e => [.ok e]
          | none => [])
  | line :: rest, saved, dirty, o, m =>
    if (bytes "=== ").isPrefixOf line then
      (iterFilePatchGo rest saved dirty o m).map (.ok (.Meta line) :: ·)
    else if (bytes "*** ").isPrefixOf line then
      iterFilePatchGo rest saved dirty o m
    else if (bytes "#").isPrefixOf line then
      iterFilePatchGo rest saved dirty o m
    else if 0 < o ∨ 0 < m then
      let decO : Option Nat :=
        if (bytes "-").isPrefixOf line ∨ (bytes " ").isPrefixOf line then
          if o = 0 then none else some (o - 1)
        else some o
      let decM : Option Nat :=
        if (bytes "+").isPrefixOf line ∨ (bytes " ").isPrefixOf line then
          if m = 0 then none else some (m - 1)
        else some m
      match decO, decM with
      | some o', some m' => iterFilePatchGo rest (saved ++ [line]) dirty o' m'
      | _, _ => none
    else if (bytes "--- ").isPrefixOf line ∨ binaryFilesMatch line then
      match feEntry saved dirty with
      | some e => (iterFilePatchGo rest [line] false o m).map (.ok e :: ·)
      | none => iterFilePatchGo rest [line] false o m
    else if (bytes "+++ ").isPrefixOf line ∧ dirty = false then
      iterFilePatchGo rest (saved ++ [line]) dirty o m
    else if (bytes "@@").isPrefixOf line then
      match Hunk.fromHeader line with
      | .panic => none
      | .err msg l =>
        (iterFilePatchGo rest saved dirty o m).map
          (.error (.MalformedHunkHeader msg l) :: ·)
      | .ok hunk =>
        iterFilePatchGo rest (saved ++ [line]) dirty hunk.origRange hunk.modRange
    else
      match (if dirty = false then feEntry saved dirty else none) with
      | some e => (iterFilePatchGo rest [line] true o m).map (.ok e :: ·)
      | none => iterFilePatchGo rest (saved ++ [line]) true o m

/-- `iter_file_patch` from `src/parse.rs`, driven to completion;
`none` models a panic inside the state machine. -/
def iterFilePatch (orig : List ByteStr) : Option (List (Except ParseError FileEntry)) :=
  iterFilePatchGo orig [] false 0 0

/-! ## Single-file hunk iterator (`iter_hunks` in `src/parse.rs`) -/

/-- `iter_hunks` from `src/parse.rs`, driven to completion, written
as a state machine over the line stream (the source's nested loops,
flattened: `none` state means "between hunks", `some (h, os, ms)`
means "inside the body of hunk `h` with `orig_size = os`,
`mod_size = ms`").  Between hunks it skips blank (`"\n"`) lines and
parses a hunk header; inside a body it classifies lines with
`HunkLine::parse_line` until both declared ranges are filled;
exhaustion mid-body silently ends the whole iteration (the `?` on
`iter_lines.next()` in the source), and a failed line classification
emits a `PatchSyntax` error item after which iteration resumes at the
outer loop.  The result `none` propagates a panic of
`Hunk::from_header`. -/
def iterHunksGo : Option (Hunk × Nat × Nat) → List ByteStr →
    Option (List (Except ParseError Hunk))
  | none, [] => some []
  | none, l :: rest =>
    if l = [10] then iterHunksGo none rest
    else
      match Hunk.fromHeader l with
      | .panic => none
      | .err msg line =>
        (iterHunksGo none rest).map (.error (.MalformedHunkHeader msg line) :: ·)
      | .ok h =>
        if 0 < h.origRange ∨ 0 < h.modRange then iterHunksGo (some (h, 0, 0)) rest
        else (iterHunksGo none rest).map (.ok h :: ·)
  | some _, [] => some []
  | some (h, os, ms), l :: rest =>
    match HunkLine.parseLine l with
    | none =>
      (iterHunksGo none rest).map (.error (.PatchSyntax "Invalid hunk line" l) :: ·)
    | some hl =>
      let os' := os + (match hl with | .RemoveLine _ => 1 | .ContextLine _ => 1 | _ => 0)
      let ms' := ms + (match hl with | .InsertLine _ => 1 | .ContextLine _ => 1 | _ => 0)
      let h' : Hunk := { h with lines := h.lines ++ [hl] }
      if os' < h.origRange ∨ ms' < h.modRange then iterHunksGo (some (h', os', ms')) rest
      else (iterHunksGo none rest).map (.ok h' :: ·)

/-- Does `h.as_bytes()` parse without error through the
`iter_lines_handle_nl` + `iter_hunks` pipeline used by
`UnifiedPatch::parse_patch` in `src/patch.rs`? -/
def hunkParsesClean (h : Hunk) : Bool :=
  match iterLinesHandleNl (splitlines h.asBytes) with
  | none => false
  | some ls =>
    match iterHunksGo none ls with
    | none => false
    | some results =>
      results.all fun r => match r with | .ok _ => true | _ => false

/-! ### The lossless patch editor (`src/edit/lex.rs`, `src/edit/parse.rs`)

`edit::lossless::parse` lexes the input into tokens and builds a rowan
green tree.  Tokens are modelled as kind–text pairs over `List Char`,
the tree as a mutual inductive, and every parser function as a
function from the remaining token list to the children it emits plus
the rest.  A `GreenNodeBuilder` checkpoint that later becomes a
`start_node_at` is translated by building the wrapped children list
directly.  Loops whose body consumes at least one token are given
structural fuel; with fuel at least the token count they behave
exactly like the source loops. -/

/-- `SyntaxKind` from `src/edit/lex.rs`. -/
inductive PKind : Type
  | MINUS | PLUS | AT | SPACE | NEWLINE | WHITESPACE | NUMBER
  | COMMA | COLON | DOT | SLASH | PATH | TEXT | ERROR
  | STAR | EXCLAMATION | LESS_THAN | GREATER_THAN
  | LETTER_A | LETTER_C | LETTER_D | BACKSLASH
  | ROOT | PATCH_FILE | FILE_HEADER | OLD_FILE | NEW_FILE
  | HUNK | HUNK_HEADER | HUNK_RANGE | CONTEXT_LINE | ADD_LINE | DELETE_LINE
  | CONTEXT_DIFF_FILE | CONTEXT_OLD_FILE | CONTEXT_NEW_FILE
  | CONTEXT_HUNK | CONTEXT_HUNK_HEADER | CONTEXT_OLD_SECTION
  | CONTEXT_NEW_SECTION | CONTEXT_CHANGE_LINE
  | ED_COMMAND | ED_ADD_COMMAND | ED_DELETE_COMMAND | ED_CHANGE_COMMAND
  | ED_CONTENT_LINE
  | NORMAL_HUNK | NORMAL_CHANGE_COMMAND | NORMAL_OLD_LINES
  | NORMAL_NEW_LINES | NORMAL_SEPARATOR | HUNK_LINE | NO_NEWLINE_LINE
  deriving DecidableEq, Repr

/-- A lexed token: kind and text. -/
def PTok : Type := PKind × List Char

/-- Is the character a stop for the lexer's `TEXT` span (the explicit
break list of `Lexer::next`)? -/
def isBreakChar (c : Char) : Bool :=
  c = '\n' || c = '\r' || c = ' ' || c = '\t' || c = '-' || c = '+' ||
  c = '@' || c = ',' || c = ':' || c = '.' || c = '/' || c = '*' ||
  c = '!' || c = '<' || c = '>' || c = '\\'

/-- Is the character an ASCII digit (the `is_ascii_digit` /
`'0'..='9'` checks)? -/
def isDigitChar (c : Char) : Bool := '0' ≤ c && c ≤ '9'

/-- Space or tab (the `lex_whitespace` predicate). -/
def isWsChar (c : Char) : Bool := c = ' ' || c = '\t'

/-- `could_be_ed_command`: the character before the cursor is a
digit (`false` at position 0). -/
def prevIsDigit : Option Char → Bool
  | some d => isDigitChar d
  | none => false

/-- The `TEXT` span of `Lexer::next`: consume characters until a
break character, or an `a`/`c`/`d` whose preceding character is a
digit.  Returns the consumed span and the rest. -/
def textSpanGo : List Char → Char → List Char × List Char
  | [], _ => ([], [])
  | c :: rest, prev =>
    if isBreakChar c then ([], c :: rest)
    else if (c = 'a' || c = 'c' || c = 'd') && isDigitChar prev then ([], c :: rest)
    else
      let (t, r) := textSpanGo rest c
      (c :: t, r)

/-- `Lexer::next` from `src/edit/lex.rs`, iterated.  The state is the
remaining input, the `start_of_line` flag and the character just
before the cursor (`none` at position 0).  Each step consumes at
least one character, so fuel `length + 1` always suffices. -/
def lexGo : Nat → List Char → Bool → Option Char → List PTok
  | 0, _, _, _ => []
  | _ + 1, [], _, _ => []
  | fuel + 1, c :: rest, sol, prev =>
    if c = '\n' then (.NEWLINE, [c]) :: lexGo fuel rest true (some c)
    else if c = '\r' then
      match rest with
      | '\n' :: rest2 => (.NEWLINE, ['\r', '\n']) :: lexGo fuel rest2 true (some '\n')
      | _ => (.NEWLINE, ['\r']) :: lexGo fuel rest true (some '\r')
    else if c = ' ' then
      if sol then (.SPACE, [' ']) :: lexGo fuel rest false (some ' ')
      else
        let t := rest.takeWhile isWsChar
        (.WHITESPACE, c :: t) :: lexGo fuel (rest.dropWhile isWsChar) sol
          (some ((c :: t).getLastD c))
    else if c = '\t' then
      let t := rest.takeWhile isWsChar
      (.WHITESPACE, c :: t) :: lexGo fuel (rest.dropWhile isWsChar) sol
        (some ((c :: t).getLastD c))
    else if c = '-' then (.MINUS, [c]) :: lexGo fuel rest false (some c)
    else if c = '+' then (.PLUS, [c]) :: lexGo fuel rest false (some c)
    else if c = '@' then (.AT, [c]) :: lexGo fuel rest false (some c)
    else if c = ',' then (.COMMA, [c]) :: lexGo fuel rest sol (some c)
    else if c = ':' then (.COLON, [c]) :: lexGo fuel rest sol (some c)
    else if c = '.' then (.DOT, [c]) :: lexGo fuel rest sol (some c)
    else if c = '/' then (.SLASH, [c]) :: lexGo fuel rest sol (some c)
    else if c = '*' then (.STAR, [c]) :: lexGo fuel rest false (some c)
    else if c = '!' then (.EXCLAMATION, [c]) :: lexGo fuel rest false (some c)
    else if c = '<' then (.LESS_THAN, [c]) :: lexGo fuel rest false (some c)
    else if c = '>' then (.GREATER_THAN, [c]) :: lexGo fuel rest false (some c)
    else if c = '\\' then (.BACKSLASH, [c]) :: lexGo fuel rest sol (some c)
    else if c = 'a' && prevIsDigit prev then (.LETTER_A, [c]) :: lexGo fuel rest sol (some c)
    else if c = 'c' && prevIsDigit prev then (.LETTER_C, [c]) :: lexGo fuel rest sol (some c)
    else if c = 'd' && prevIsDigit prev then (.LETTER_D, [c]) :: lexGo fuel rest sol (some c)
    else if isDigitChar c then
      let t := rest.takeWhile isDigitChar
      (.NUMBER, c :: t) :: lexGo fuel (rest.dropWhile isDigitChar) sol
        (some ((c :: t).getLastD c))
    else
      (.TEXT, c :: (textSpanGo rest c).1) ::
        lexGo fuel (textSpanGo rest c).2 false
          (some ((c :: (textSpanGo rest c).1).getLastD c))

/-- `lex` from `src/edit/lex.rs`: run the lexer over the whole
input. -/
def lex (s : List Char) : List PTok := lexGo (s.length + 1) s true none

mutual
/-- A rowan green-tree element for the patch language. -/
inductive PTree : Type
  | token (kind : PKind) (text : List Char)
  | node (kind : PKind) (children : PTreeList)

/-- A list of tree elements. -/
inductive PTreeList : Type
  | nil
  | cons (hd : PTree) (tl : PTreeList)
end

/-- Concatenation of child lists. -/
def PTreeList.append : PTreeList → PTreeList → PTreeList
  | .nil, ys => ys
  | .cons x xs, ys => .cons x (xs.append ys)

mutual
/-- The concatenated token texts of the subtree in preorder
(rowan's `SyntaxText`). -/
def PTree.text : PTree → List Char
  | .token _ t => t
  | .node _ cs => cs.text

/-- Concatenated text of a child list. -/
def PTreeList.text : PTreeList → List Char
  | .nil => []
  | .cons c cs => c.text ++ cs.text
end

/-- The concatenated texts of a token list. -/
def tokText (toks : List PTok) : List Char := (toks.map Prod.snd).flatten

/-- The pattern tests inside `Parser::peek_text`: once the
accumulated text has length at least 2 it is probed for the leading
patterns `---`, `+++`, `@@`, and at length at least 3 also `***`. -/
def peekCheck (t : List Char) : Option (List Char) :=
  if 2 ≤ t.length then
    if List.isPrefixOf ['-', '-', '-'] t then some ['-', '-', '-']
    else if List.isPrefixOf ['+', '+', '+'] t then some ['+', '+', '+']
    else if List.isPrefixOf ['@', '@'] t then some ['@', '@']
    else if 3 ≤ t.length ∧ List.isPrefixOf ['*', '*', '*'] t then some ['*', '*', '*']
    else none
  else none

/-- `Parser::peek_text` from `src/edit/parse.rs`: concatenate up to
three tokens from `cursor + offset` probing for a header pattern; the
fallback (kept faithfully) reads the token at `cursor + 2 * offset`
because the source adds `offset` to `start` a second time. -/
def peekText (toks : List PTok) (offset : Nat) : Option (List Char) :=
  let fallback := (toks.get? (offset + offset)).map Prod.snd
  match toks.get? offset with
  | none => fallback
  | some (_, t1) =>
    match peekCheck t1 with
    | some r => some r
    | none =>
      match toks.get? (offset + 1) with
      | none => fallback
      | some (_, t2) =>
        match peekCheck (t1 ++ t2) with
        | some r => some r
        | none =>
          match toks.get? (offset + 2) with
          | none => fallback
          | some (_, t3) =>
            match peekCheck (t1 ++ t2 ++ t3) with
            | some r => some r
            | none => fallback

/-- The kind of the token at the cursor (`current_kind`). -/
def curKind (toks : List PTok) : Option PKind := (toks.head?).map Prod.fst

/-- `at(kind) && peek_text(0) == Some(pat)` — the header tests. -/
def atPat (toks : List PTok) (k : PKind) (pat : List Char) : Bool :=
  curKind toks = some k && peekText toks 0 = some pat

/-- `Parser::looks_like_ed_command`. -/
def looksLikeEdCommand (toks : List PTok) : Bool :=
  match curKind toks with
  | some .NUMBER =>
    match (toks.dropWhile (fun t => t.1 = .NUMBER || t.1 = .COMMA)).head? with
    | some (.LETTER_A, _) => true
    | some (.LETTER_C, _) => true
    | some (.LETTER_D, _) => true
    | _ => false
  | _ => false

/-- `Parser::looks_like_normal_diff`. -/
def looksLikeNormalDiff (toks : List PTok) : Bool :=
  match curKind toks with
  | some .NUMBER =>
    match toks.dropWhile (fun t => t.1 = .NUMBER || t.1 = .COMMA) with
    | (.LETTER_A, _) :: (.NUMBER, _) :: _ => true
    | (.LETTER_C, _) :: (.NUMBER, _) :: _ => true
    | (.LETTER_D, _) :: (.NUMBER, _) :: _ => true
    | _ => false
  | _ => false

/-- `Parser::looks_like_context_hunk_separator`: at least 7 `STAR`
tokens followed by a newline or the end. -/
def looksLikeContextHunkSeparator (toks : List PTok) : Bool :=
  let stars := toks.takeWhile (fun t => t.1 = PKind.STAR)
  7 ≤ stars.length &&
    match (toks.dropWhile (fun t => t.1 = PKind.STAR)).head? with
    | some (.NEWLINE, _) => true
    | none => true
    | _ => false

/-- `Parser::looks_like_context_hunk_range`: `***`, whitespace, a
number, numbers and commas, whitespace, at least 3 trailing stars. -/
def looksLikeContextHunkRange (toks : List PTok) : Bool :=
  atPat toks .STAR ['*', '*', '*'] &&
    (let l1 := (toks.drop 3).dropWhile (fun t => t.1 = PKind.WHITESPACE)
     match curKind l1 with
     | some .NUMBER =>
       let l2 := (l1.dropWhile (fun t => t.1 = .NUMBER || t.1 = .COMMA)).dropWhile
         (fun t => t.1 = PKind.WHITESPACE)
       3 ≤ (l2.takeWhile (fun t => t.1 = PKind.STAR)).length
     | _ => false)

/-- `Parser::looks_like_context_new_section`: `---`, whitespace, a
number, numbers and commas, whitespace, at least 3 trailing minus
tokens. -/
def looksLikeContextNewSection (toks : List PTok) : Bool :=
  atPat toks .MINUS ['-', '-', '-'] &&
    (let l1 := (toks.drop 3).dropWhile (fun t => t.1 = PKind.WHITESPACE)
     match curKind l1 with
     | some .NUMBER =>
       let l2 := (l1.dropWhile (fun t => t.1 = .NUMBER || t.1 = .COMMA)).dropWhile
         (fun t => t.1 = PKind.WHITESPACE)
       3 ≤ (l2.takeWhile (fun t => t.1 = PKind.MINUS)).length
     | _ => false)

/-- `Parser::is_hunk_end`: a new hunk header or file header ahead. -/
def isHunkEnd (toks : List PTok) : Bool :=
  atPat toks .AT ['@', '@'] || atPat toks .MINUS ['-', '-', '-'] ||
    atPat toks .PLUS ['+', '+', '+']

/-- `Parser::is_context_section_end`. -/
def isContextSectionEnd (toks : List PTok) : Bool :=
  atPat toks .MINUS ['-', '-', '-'] ||
    (curKind toks = some .STAR &&
      (atPat toks .STAR ['*', '*', '*'] || looksLikeContextHunkSeparator toks))

/-- `Parser::advance` iterated `n` times: emit up to `n` tokens into
the current node. -/
def advanceN : Nat → List PTok → PTreeList × List PTok
  | 0, toks => (.nil, toks)
  | _ + 1, [] => (.nil, [])
  | n + 1, (k, t) :: rest =>
    let (ts, r) := advanceN n rest
    (.cons (.token k t) ts, r)

/-- Emit the next token when it has the given kind (the
`if at(kind) { advance() }` pattern). -/
def consumeIfKind (k : PKind) : List PTok → PTreeList × List PTok
  | [] => (.nil, [])
  | (kc, t) :: rest =>
    if kc = k then (.cons (.token kc t) .nil, rest)
    else (.nil, (kc, t) :: rest)

/-- `Parser::skip_whitespace`: emit `WHITESPACE` tokens. -/
def skipWhitespace : List PTok → PTreeList × List PTok
  | [] => (.nil, [])
  | (kc, t) :: rest =>
    if kc = PKind.WHITESPACE then
      let (ts, r) := skipWhitespace rest
      (.cons (.token kc t) ts, r)
    else (.nil, (kc, t) :: rest)

/-- `Parser::skip_to_next_line` / `skip_to_eol`: emit tokens up to
and including the next newline. -/
def skipToEol : List PTok → PTreeList × List PTok
  | [] => (.nil, [])
  | (kc, t) :: rest =>
    if kc = PKind.NEWLINE then (.cons (.token kc t) .nil, rest)
    else
      let (ts, r) := skipToEol rest
      (.cons (.token kc t) ts, r)

/-- Emit tokens of the given kinds (the number/comma spans of the ed
and normal parsers). -/
def kindSpan (p : PKind → Bool) : List PTok → PTreeList × List PTok
  | [] => (.nil, [])
  | (kc, t) :: rest =>
    if p kc then
      let (ts, r) := kindSpan p rest
      (.cons (.token kc t) ts, r)
    else (.nil, (kc, t) :: rest)

/-- The path-collection loop of `parse_old_file` / `parse_new_file` /
`parse_file_path`: tokens of the path kinds are consumed without
being emitted and their texts are concatenated; a newline or any
other kind stops the loop (the `WHITESPACE` arm and the default arm
both stop it). -/
def collectPath (pk : PKind → Bool) : List PTok → List Char × List PTok
  | [] => ([], [])
  | (kc, t) :: rest =>
    if kc = PKind.NEWLINE then ([], (kc, t) :: rest)
    else if pk kc then
      let (p, r) := collectPath pk rest
      (t ++ p, r)
    else ([], (kc, t) :: rest)

/-- The path kinds of `parse_old_file` / `parse_new_file`. -/
def unifiedPathKind (k : PKind) : Bool :=
  k = .TEXT || k = .SLASH || k = .DOT || k = .NUMBER || k = .COLON || k = .BACKSLASH

/-- The path kinds of `parse_file_path` (context headers), which also
accept `MINUS` and `STAR`. -/
def contextPathKind (k : PKind) : Bool :=
  k = .TEXT || k = .SLASH || k = .DOT || k = .NUMBER || k = .MINUS ||
  k = .STAR || k = .COLON || k = .BACKSLASH

/-- The fused `PATH` token: emitted only when some path text was
collected. -/
def pathToks (p : List Char) : PTreeList :=
  if p = [] then .nil else .cons (.token .PATH p) .nil

/-- `Parser::parse_old_file` and `parse_new_file` (identical up to
the node kind): consume the three header sign tokens, whitespace, the
fused path, then the rest of the line. -/
def parseFileHeader (nk : PKind) (toks : List PTok) : PTree × List PTok :=
  let r1 := advanceN 3 toks
  let r2 := skipWhitespace r1.2
  let r3 := collectPath unifiedPathKind r2.2
  let r4 := skipToEol r3.2
  (.node nk (r1.1.append (r2.1.append ((pathToks r3.1).append r4.1))), r4.2)

/-- `Parser::parse_hunk_range`. -/
def parseHunkRange (toks : List PTok) : PTree × List PTok :=
  let r1 := advanceN 1 toks
  let r2 := consumeIfKind .NUMBER r1.2
  match r2.2 with
  | (PKind.COMMA, ct) :: r =>
    let r3 := consumeIfKind .NUMBER r
    (.node .HUNK_RANGE (r1.1.append (r2.1.append (.cons (.token .COMMA ct) r3.1))), r3.2)
  | _ => (.node .HUNK_RANGE (r1.1.append r2.1), r2.2)

/-- `Parser::parse_hunk_header`. -/
def parseHunkHeader (toks : List PTok) : PTree × List PTok :=
  let a2 := advanceN 2 toks
  let w1 := skipWhitespace a2.2
  let g1 : PTreeList × List PTok :=
    if curKind w1.2 = some .MINUS then
      (PTreeList.cons (parseHunkRange w1.2).1 .nil, (parseHunkRange w1.2).2)
    else (PTreeList.nil, w1.2)
  let w2 := skipWhitespace g1.2
  let g2 : PTreeList × List PTok :=
    if curKind w2.2 = some .PLUS then
      (PTreeList.cons (parseHunkRange w2.2).1 .nil, (parseHunkRange w2.2).2)
    else (PTreeList.nil, w2.2)
  let w3 := skipWhitespace g2.2
  let cl := if curKind w3.2 = some .AT then advanceN 2 w3.2 else (PTreeList.nil, w3.2)
  let e8 := skipToEol cl.2
  (.node .HUNK_HEADER
      (a2.1.append (w1.1.append (g1.1.append (w2.1.append
        (g2.1.append (w3.1.append (cl.1.append e8.1))))))), e8.2)

/-- `Parser::parse_hunk_line`: the leading `SPACE`/`PLUS`/`MINUS`
token selects the node kind, anything else becomes a context line
without a marker; then the rest of the line. -/
def parseHunkLine (toks : List PTok) : PTree × List PTok :=
  match toks with
  | (PKind.SPACE, t) :: r =>
    (.node .CONTEXT_LINE (.cons (.token .SPACE t) (skipToEol r).1), (skipToEol r).2)
  | (PKind.PLUS, t) :: r =>
    (.node .ADD_LINE (.cons (.token .PLUS t) (skipToEol r).1), (skipToEol r).2)
  | (PKind.MINUS, t) :: r =>
    (.node .DELETE_LINE (.cons (.token .MINUS t) (skipToEol r).1), (skipToEol r).2)
  | _ =>
    (.node .CONTEXT_LINE (skipToEol toks).1, (skipToEol toks).2)

/-- The hunk-line loop of `parse_hunk`. -/
def parseHunkLines : Nat → List PTok → PTreeList × List PTok
  | 0, toks => (.nil, toks)
  | fuel + 1, toks =>
    if toks.isEmpty || isHunkEnd toks then (.nil, toks)
    else
      let l := parseHunkLine toks
      let ls := parseHunkLines fuel l.2
      (.cons l.1 ls.1, ls.2)

/-- The invalid-header recovery loop of `parse_hunk`: skip whole
lines until a hunk or file boundary. -/
def skipLinesUntilHunkEnd : Nat → List PTok → PTreeList × List PTok
  | 0, toks => (.nil, toks)
  | fuel + 1, toks =>
    if toks.isEmpty || isHunkEnd toks then (.nil, toks)
    else
      let l := skipToEol toks
      let ls := skipLinesUntilHunkEnd fuel l.2
      (l.1.append ls.1, ls.2)

/-- The lookahead of `parse_hunk`: after `@@` and whitespace there
must be a `-` or `+` sign immediately followed by a number. -/
def hasValidRange (toks : List PTok) : Bool :=
  match (toks.drop 2).dropWhile (fun t => t.1 = PKind.WHITESPACE) with
  | (.MINUS, _) :: (.NUMBER, _) :: _ => true
  | (.PLUS, _) :: (.NUMBER, _) :: _ => true
  | _ => false

/-- `Parser::parse_hunk`: with a valid range the header and lines are
wrapped in a `HUNK` node (via the checkpoint); otherwise the `@@`
line and the following lines up to the next boundary are emitted
directly into the parent. -/
def parseHunk (fuel : Nat) (toks : List PTok) : PTreeList × List PTok :=
  if hasValidRange toks then
    let h := parseHunkHeader toks
    let ls := parseHunkLines fuel h.2
    (.cons (.node .HUNK (.cons h.1 ls.1)) .nil, ls.2)
  else
    let l := skipToEol toks
    let ls := skipLinesUntilHunkEnd fuel l.2
    (l.1.append ls.1, ls.2)

/-- The hunk loop of `parse_patch_file`. -/
def parseHunks : Nat → List PTok → PTreeList × List PTok
  | 0, toks => (.nil, toks)
  | fuel + 1, toks =>
    if atPat toks .AT ['@', '@'] then
      let h := parseHunk fuel toks
      let hs := parseHunks fuel h.2
      (h.1.append hs.1, hs.2)
    else (.nil, toks)

/-- `Parser::parse_patch_file` (unified diff). -/
def parsePatchFile (fuel : Nat) (toks : List PTok) : PTree × List PTok :=
  let old : PTreeList × List PTok :=
    if atPat toks .MINUS ['-', '-', '-'] then
      (PTreeList.cons (parseFileHeader .OLD_FILE toks).1 .nil,
        (parseFileHeader .OLD_FILE toks).2)
    else (PTreeList.nil, toks)
  let nw : PTreeList × List PTok :=
    if atPat old.2 .PLUS ['+', '+', '+'] then
      (PTreeList.cons (parseFileHeader .NEW_FILE old.2).1 .nil,
        (parseFileHeader .NEW_FILE old.2).2)
    else (PTreeList.nil, old.2)
  let hs := parseHunks fuel nw.2
  (.node .PATCH_FILE (old.1.append (nw.1.append hs.1)), hs.2)

/-- `Parser::parse_file_path` (context headers): the fused `PATH`
token over the extended kind set, without the line tail. -/
def parseFilePath (toks : List PTok) : PTreeList × List PTok :=
  (pathToks (collectPath contextPathKind toks).1, (collectPath contextPathKind toks).2)

/-- `Parser::parse_context_old_file` / `parse_context_new_file`
(identical up to the node kind). -/
def parseContextFileHeader (nk : PKind) (toks : List PTok) : PTree × List PTok :=
  let r1 := advanceN 3 toks
  let r2 := skipWhitespace r1.2
  let r3 := parseFilePath r2.2
  let r4 := skipToEol r3.2
  (.node nk (r1.1.append (r2.1.append (r3.1.append r4.1))), r4.2)

/-- `Parser::parse_context_line`: like `parse_hunk_line` with an
additional `!` arm. -/
def parseContextLine (toks : List PTok) : PTree × List PTok :=
  match toks with
  | (PKind.SPACE, t) :: r =>
    (.node .CONTEXT_LINE (.cons (.token .SPACE t) (skipToEol r).1), (skipToEol r).2)
  | (PKind.EXCLAMATION, t) :: r =>
    (.node .CONTEXT_CHANGE_LINE (.cons (.token .EXCLAMATION t) (skipToEol r).1),
      (skipToEol r).2)
  | (PKind.PLUS, t) :: r =>
    (.node .ADD_LINE (.cons (.token .PLUS t) (skipToEol r).1), (skipToEol r).2)
  | (PKind.MINUS, t) :: r =>
    (.node .DELETE_LINE (.cons (.token .MINUS t) (skipToEol r).1), (skipToEol r).2)
  | _ =>
    (.node .CONTEXT_LINE (skipToEol toks).1, (skipToEol toks).2)

/-- The line loop of the two context sections. -/
def parseContextLines : Nat → List PTok → PTreeList × List PTok
  | 0, toks => (.nil, toks)
  | fuel + 1, toks =>
    if toks.isEmpty || isContextSectionEnd toks then (.nil, toks)
    else
      let l := parseContextLine toks
      let ls := parseContextLines fuel l.2
      (.cons l.1 ls.1, ls.2)

/-- `Parser::parse_context_old_section` / `parse_context_new_section`
(identical up to the node kind): the three sign tokens, whitespace,
a hunk range, the line tail, then the section lines. -/
def parseContextSection (nk : PKind) (fuel : Nat) (toks : List PTok) :
    PTree × List PTok :=
  let r1 := advanceN 3 toks
  let r2 := skipWhitespace r1.2
  let r3 := parseHunkRange r2.2
  let r4 := skipToEol r3.2
  let r5 := parseContextLines fuel r4.2
  (.node nk (r1.1.append (r2.1.append (.cons r3.1 (r4.1.append r5.1)))), r5.2)

/-- The body shared by `parse_context_hunk` (after its header) and
`parse_context_hunk_without_separator`: the optional old and new
sections. -/
def parseContextSections (fuel : Nat) (toks : List PTok) : PTreeList × List PTok :=
  let old : PTreeList × List PTok :=
    if atPat toks .STAR ['*', '*', '*'] then
      (PTreeList.cons (parseContextSection .CONTEXT_OLD_SECTION fuel toks).1 .nil,
        (parseContextSection .CONTEXT_OLD_SECTION fuel toks).2)
    else (PTreeList.nil, toks)
  let nw : PTreeList × List PTok :=
    if atPat old.2 .MINUS ['-', '-', '-'] then
      (PTreeList.cons (parseContextSection .CONTEXT_NEW_SECTION fuel old.2).1 .nil,
        (parseContextSection .CONTEXT_NEW_SECTION fuel old.2).2)
    else (PTreeList.nil, old.2)
  (old.1.append nw.1, nw.2)

/-- `Parser::parse_context_hunk`: the star separator line as a
`CONTEXT_HUNK_HEADER`, then the sections. -/
def parseContextHunk (fuel : Nat) (toks : List PTok) : PTree × List PTok :=
  let r1 := kindSpan (fun k => k = PKind.STAR) toks
  let r2 := skipToEol r1.2
  let r3 := parseContextSections fuel r2.2
  (.node .CONTEXT_HUNK
      (.cons (.node .CONTEXT_HUNK_HEADER (r1.1.append r2.1)) r3.1), r3.2)

/-- `Parser::parse_context_hunk_without_separator`. -/
def parseContextHunkNoSep (fuel : Nat) (toks : List PTok) : PTree × List PTok :=
  (.node .CONTEXT_HUNK (parseContextSections fuel toks).1,
    (parseContextSections fuel toks).2)

/-- The hunk loop of `parse_context_diff_file`. -/
def parseContextHunks : Nat → List PTok → PTreeList × List PTok
  | 0, toks => (.nil, toks)
  | fuel + 1, toks =>
    if curKind toks = some .STAR && looksLikeContextHunkSeparator toks then
      let h := parseContextHunk fuel toks
      let hs := parseContextHunks fuel h.2
      (.cons h.1 hs.1, hs.2)
    else (.nil, toks)

/-- `Parser::parse_context_diff_file`. -/
def parseContextDiffFile (fuel : Nat) (toks : List PTok) : PTree × List PTok :=
  let old : PTreeList × List PTok :=
    if atPat toks .STAR ['*', '*', '*'] then
      (PTreeList.cons (parseContextFileHeader .CONTEXT_OLD_FILE toks).1 .nil,
        (parseContextFileHeader .CONTEXT_OLD_FILE toks).2)
    else (PTreeList.nil, toks)
  let nw : PTreeList × List PTok :=
    if atPat old.2 .MINUS ['-', '-', '-'] then
      (PTreeList.cons (parseContextFileHeader .CONTEXT_NEW_FILE old.2).1 .nil,
        (parseContextFileHeader .CONTEXT_NEW_FILE old.2).2)
    else (PTreeList.nil, old.2)
  let hs := parseContextHunks fuel nw.2
  (.node .CONTEXT_DIFF_FILE (old.1.append (nw.1.append hs.1)), hs.2)

/-- `Parser::parse_ed_content_lines`: content lines up to a lone
`.` line, whose dot and newline are emitted into the parent. -/
def parseEdContentLines : Nat → List PTok → PTreeList × List PTok
  | 0, toks => (.nil, toks)
  | fuel + 1, toks =>
    match toks with
    | [] => (.nil, [])
    | (PKind.DOT, dt) :: (PKind.NEWLINE, nt) :: rest =>
      (.cons (.token .DOT dt) (.cons (.token .NEWLINE nt) .nil), rest)
    | _ =>
      let c := skipToEol toks
      let ls := parseEdContentLines fuel c.2
      (.cons (.node .ED_CONTENT_LINE c.1) ls.1, ls.2)

/-- `Parser::parse_ed_command`: the number/comma span and everything
after it are wrapped (via the checkpoint) into a command node by the
letter; an invalid command leaves the tokens directly in the
`ED_COMMAND` node. -/
def parseEdCommand (fuel : Nat) (toks : List PTok) : PTree × List PTok :=
  let nums := kindSpan (fun k => k = PKind.NUMBER || k = PKind.COMMA) toks
  match nums.2 with
  | (PKind.LETTER_A, lt) :: r =>
    let eol := skipToEol r
    let ls := parseEdContentLines fuel eol.2
    (.node .ED_COMMAND (.cons (.node .ED_ADD_COMMAND
        (nums.1.append (.cons (.token .LETTER_A lt) (eol.1.append ls.1)))) .nil), ls.2)
  | (PKind.LETTER_D, lt) :: r =>
    let eol := skipToEol r
    (.node .ED_COMMAND (.cons (.node .ED_DELETE_COMMAND
        (nums.1.append (.cons (.token .LETTER_D lt) eol.1))) .nil), eol.2)
  | (PKind.LETTER_C, lt) :: r =>
    let eol := skipToEol r
    let ls := parseEdContentLines fuel eol.2
    (.node .ED_COMMAND (.cons (.node .ED_CHANGE_COMMAND
        (nums.1.append (.cons (.token .LETTER_C lt) (eol.1.append ls.1)))) .nil), ls.2)
  | _ =>
    let eol := skipToEol nums.2
    (.node .ED_COMMAND (nums.1.append eol.1), eol.2)

/-- The `<` / `>` line loops of the normal-diff parser. -/
def parseNormalLines (guard lineKind : PKind) : Nat → List PTok → PTreeList × List PTok
  | 0, toks => (.nil, toks)
  | fuel + 1, toks =>
    match toks with
    | (kc, t) :: rest =>
      if kc = guard then
        let ws := skipWhitespace rest
        let c := skipToEol ws.2
        let ls := parseNormalLines guard lineKind fuel c.2
        (.cons (.node lineKind (.cons (.token kc t) (ws.1.append c.1))) ls.1, ls.2)
      else (.nil, (kc, t) :: rest)
    | [] => (.nil, [])

/-- The `if matches!(current_kind, LETTER_A | LETTER_C | LETTER_D) { advance }`
step of `parse_normal_hunk`. -/
def normalCmdTok : List PTok → PTreeList × List PTok
  | (PKind.LETTER_A, lt) :: r => (PTreeList.cons (.token .LETTER_A lt) .nil, r)
  | (PKind.LETTER_C, lt) :: r => (PTreeList.cons (.token .LETTER_C lt) .nil, r)
  | (PKind.LETTER_D, lt) :: r => (PTreeList.cons (.token .LETTER_D lt) .nil, r)
  | x => (PTreeList.nil, x)

/-- `Parser::parse_normal_hunk`. -/
def parseNormalHunk (fuel : Nat) (toks : List PTok) : PTree × List PTok :=
  let n1 := kindSpan (fun k => k = PKind.NUMBER || k = PKind.COMMA) toks
  let cmd := normalCmdTok n1.2
  let n2 := kindSpan (fun k => k = PKind.NUMBER || k = PKind.COMMA) cmd.2
  let eol := skipToEol n2.2
  let old : PTreeList × List PTok :=
    if curKind eol.2 = some .LESS_THAN then
      (PTreeList.cons
        (.node .NORMAL_OLD_LINES (parseNormalLines .LESS_THAN .DELETE_LINE fuel eol.2).1)
        .nil, (parseNormalLines .LESS_THAN .DELETE_LINE fuel eol.2).2)
    else (PTreeList.nil, eol.2)
  let sep : PTreeList × List PTok :=
    if atPat old.2 .MINUS ['-', '-', '-'] then
      (PTreeList.cons
        (.node .NORMAL_SEPARATOR
          ((advanceN 3 old.2).1.append (skipToEol (advanceN 3 old.2).2).1)) .nil,
        (skipToEol (advanceN 3 old.2).2).2)
    else (PTreeList.nil, old.2)
  let nw : PTreeList × List PTok :=
    if curKind sep.2 = some .GREATER_THAN then
      (PTreeList.cons
        (.node .NORMAL_NEW_LINES (parseNormalLines .GREATER_THAN .ADD_LINE fuel sep.2).1)
        .nil, (parseNormalLines .GREATER_THAN .ADD_LINE fuel sep.2).2)
    else (PTreeList.nil, sep.2)
  (.node .NORMAL_HUNK
      (.cons (.node .NORMAL_CHANGE_COMMAND (n1.1.append (cmd.1.append (n2.1.append eol.1))))
        (old.1.append (sep.1.append nw.1))), nw.2)

/-- The format-dispatch loop of `Parser::parse_patch`.  Each
iteration consumes at least one token, so fuel `length + 1`
suffices. -/
def parsePatchGo : Nat → List PTok → PTreeList × List PTok
  | 0, toks => (.nil, toks)
  | _ + 1, [] => (.nil, [])
  | fuel + 1, tok0 :: rest =>
    let toks := tok0 :: rest
    if atPat toks .STAR ['*', '*', '*'] then
      if looksLikeContextHunkRange toks then
        let h := parseContextHunkNoSep fuel toks
        let ts := parsePatchGo fuel h.2
        (.cons (.node .CONTEXT_DIFF_FILE (.cons h.1 .nil)) ts.1, ts.2)
      else
        let f := parseContextDiffFile fuel toks
        let ts := parsePatchGo fuel f.2
        (.cons f.1 ts.1, ts.2)
    else if atPat toks .MINUS ['-', '-', '-'] &&
        !((peekText toks 3).elim false (fun t => t.head? = some '>')) &&
        !looksLikeContextNewSection toks then
      let f := parsePatchFile fuel toks
      let ts := parsePatchGo fuel f.2
      (.cons f.1 ts.1, ts.2)
    else if atPat toks .PLUS ['+', '+', '+'] then
      let f := parsePatchFile fuel toks
      let ts := parsePatchGo fuel f.2
      (.cons f.1 ts.1, ts.2)
    else if looksLikeNormalDiff toks then
      let h := parseNormalHunk fuel toks
      let ts := parsePatchGo fuel h.2
      (.cons h.1 ts.1, ts.2)
    else if looksLikeEdCommand toks then
      let e := parseEdCommand fuel toks
      let ts := parsePatchGo fuel e.2
      (.cons e.1 ts.1, ts.2)
    else
      let l := skipToEol toks
      let ts := parsePatchGo fuel l.2
      (l.1.append ts.1, ts.2)

/-- `edit::lossless::parse` from `src/edit/lossless.rs`: lex, parse,
wrap in the `ROOT` node. -/
def losslessParse (s : List Char) : PTree :=
  .node .ROOT (parsePatchGo ((lex s).length + 1) (lex s)).1

/-! ### Quilt series files (`src/edit/quilt`)

The quilt pipeline: `lex.rs` tokenizes a series file, `parse.rs`
builds a rowan green tree, `lossless.rs` wraps it in AST accessors and
`editor.rs` edits it in place.  Trees are modelled by a mutual
inductive (`QTree` for a node or token, `QTreeList` for a child list),
tokens carry their text, and serialization concatenates token texts in
preorder, as `rowan`'s `SyntaxText` does. -/

/-- `SyntaxKind` from `src/edit/quilt/lex.rs`. -/
inductive QKind : Type
  | HASH | SPACE | TAB | NEWLINE | WHITESPACE
  | PATCH_NAME | OPTION | TEXT | ERROR | EOF
  | ROOT | SERIES_ENTRY | PATCH_ENTRY | COMMENT_LINE | OPTIONS | OPTION_ITEM
  deriving DecidableEq, Repr

/-- A token as produced by `Lexer::tokenize`: kind and text. -/
def QToken : Type := QKind × List Char

/-- Does a span of `read_option` / `read_patch_name` stop at this
character (space, tab or newline)? -/
def isSpanStop (c : Char) : Bool := c = ' ' || c = '\t' || c = '\n'

/-- `Lexer::next_token` iterated over the input, from
`src/edit/quilt/lex.rs`.  The state is the remaining input, the
`in_comment` flag and the previously consumed character (`none` at
position 0); `at_line_start` is `prev ∈ {none, '\n'}` and
`prev_is_whitespace` is `prev ∈ {' ', '\t'}`.  Fuel is structural so
that concrete runs evaluate; each step consumes at least one
character, so `length + 1` fuel always suffices. -/
def quiltTokGo : Nat → List Char → Bool → Option Char → List QToken
  | 0, _, _, _ => []
  | _ + 1, [], _, _ => [(.EOF, [])]
  | fuel + 1, c :: rest, inComment, prev =>
    if c = '#' then (.HASH, ['#']) :: quiltTokGo fuel rest true (some '#')
    else if c = ' ' then (.SPACE, [' ']) :: quiltTokGo fuel rest inComment (some ' ')
    else if c = '\t' then (.TAB, ['\t']) :: quiltTokGo fuel rest inComment (some '\t')
    else if c = '\n' then (.NEWLINE, ['\n']) :: quiltTokGo fuel rest false (some '\n')
    else if inComment then
      let tok := c :: rest.takeWhile (fun d => d ≠ '\n')
      (.TEXT, tok) :: quiltTokGo fuel (rest.dropWhile (fun d => d ≠ '\n'))
        inComment (some (tok.getLastD c))
    else if prev = none ∨ prev = some '\n' ∨ prev = some ' ' ∨ prev = some '\t' then
      if c = '-' then
        let tok := c :: rest.takeWhile (fun d => ¬ isSpanStop d)
        (.OPTION, tok) :: quiltTokGo fuel (rest.dropWhile (fun d => ¬ isSpanStop d))
          inComment (some (tok.getLastD c))
      else
        let tok := c :: rest.takeWhile (fun d => ¬ isSpanStop d)
        (.PATCH_NAME, tok) :: quiltTokGo fuel (rest.dropWhile (fun d => ¬ isSpanStop d))
          inComment (some (tok.getLastD c))
    else
      let tok := c :: rest.takeWhile (fun d => d ≠ '\n')
      (.TEXT, tok) :: quiltTokGo fuel (rest.dropWhile (fun d => d ≠ '\n'))
        inComment (some (tok.getLastD c))

/-- `Lexer::tokenize` from `src/edit/quilt/lex.rs`. -/
def quiltTokenize (s : List Char) : List QToken :=
  quiltTokGo (s.length + 1) s false none

mutual
/-- A rowan green-tree element for the quilt language: a token with
its text, or a node with its children. -/
inductive QTree : Type
  | token (kind : QKind) (text : List Char)
  | node (kind : QKind) (children : QTreeList)

/-- A list of tree elements (children of a node). -/
inductive QTreeList : Type
  | nil
  | cons (hd : QTree) (tl : QTreeList)
end

/-- Concatenation of child lists. -/
def QTreeList.append : QTreeList → QTreeList → QTreeList
  | .nil, ys => ys
  | .cons x xs, ys => .cons x (xs.append ys)

mutual
/-- `syntax().text()`: the token texts of the subtree in preorder. -/
def QTree.text : QTree → List Char
  | .token _ t => t
  | .node _ cs => cs.text

/-- Concatenated text of a child list. -/
def QTreeList.text : QTreeList → List Char
  | .nil => []
  | .cons c cs => c.text ++ cs.text
end

/-- `Parser::expect` from `src/edit/quilt/parse.rs`: consume the
expected token, or record an error and emit an empty `ERROR` token
without consuming. -/
def qExpect (k : QKind) : List QToken → QTreeList × List QToken
  | [] => (.cons (.token .ERROR []) .nil, [])
  | (kc, txt) :: rest =>
    if kc = k then (.cons (.token kc txt) .nil, rest)
    else (.cons (.token .ERROR []) .nil, (kc, txt) :: rest)

/-- Consume the next token into the current node when it has the given
kind (the `if current_kind() == Some(k) { consume() }` pattern). -/
def qConsumeIf (k : QKind) : List QToken → QTreeList × List QToken
  | [] => (.nil, [])
  | (kc, txt) :: rest =>
    if kc = k then (.cons (.token kc txt) .nil, rest)
    else (.nil, (kc, txt) :: rest)

/-- Is the token kind `SPACE` or `TAB`? -/
def qIsWs (k : QKind) : Bool := k = .SPACE || k = .TAB

/-- The whitespace-skipping loops: consume `SPACE`/`TAB` tokens into
the current node. -/
def qWsSpan : List QToken → QTreeList × List QToken
  | [] => (.nil, [])
  | (kc, txt) :: rest =>
    if qIsWs kc then
      let (ts, r) := qWsSpan rest
      (.cons (.token kc txt) ts, r)
    else (.nil, (kc, txt) :: rest)

/-- `Parser::parse_comment` from `src/edit/quilt/parse.rs`. -/
def parseComment (toks : List QToken) : QTree × List QToken :=
  let (hs, t1) := qExpect .HASH toks
  let (ws, t2) := qWsSpan t1
  let (tx, t3) := qConsumeIf .TEXT t2
  let (nl, t4) := qConsumeIf .NEWLINE t3
  (.node .COMMENT_LINE (hs.append (ws.append (tx.append nl))), t4)

/-- The loop of `Parser::parse_options`: `OPTION` tokens are wrapped
in `OPTION_ITEM` nodes, interleaved whitespace is consumed directly
into the `OPTIONS` node. -/
def parseOptionsGo : List QToken → QTreeList × List QToken
  | [] => (.nil, [])
  | (kc, txt) :: rest =>
    if kc = .OPTION then
      let (ts, r) := parseOptionsGo rest
      (.cons (.node .OPTION_ITEM (.cons (.token .OPTION txt) .nil)) ts, r)
    else if qIsWs kc then
      let (ts, r) := parseOptionsGo rest
      (.cons (.token kc txt) ts, r)
    else (.nil, (kc, txt) :: rest)

/-- `Parser::has_options_ahead`: after skipping whitespace, is the
next token an `OPTION`? -/
def hasOptionsAhead (toks : List QToken) : Bool :=
  match toks.dropWhile (fun t => qIsWs t.1) with
  | (QKind.OPTION, _) :: _ => true
  | _ => false

/-- `Parser::parse_patch_entry` from `src/edit/quilt/parse.rs`. -/
def parsePatchEntry (toks : List QToken) : QTree × List QToken :=
  let (nm, t1) := qExpect .PATCH_NAME toks
  let (opts, t2) :=
    if hasOptionsAhead t1 then
      let (cs, r) := parseOptionsGo t1
      (QTreeList.cons (.node .OPTIONS cs) .nil, r)
    else (QTreeList.nil, t1)
  let (nl, t3) := qConsumeIf .NEWLINE t2
  (.node .PATCH_ENTRY (nm.append (opts.append nl)), t3)

/-- The error-recovery loop of `Parser::parse_entry`: consume tokens
into the entry until a newline, `EOF` or the end of input. -/
def qSkipToNewline : List QToken → QTreeList × List QToken
  | [] => (.nil, [])
  | (kc, txt) :: rest =>
    if kc = .NEWLINE ∨ kc = .EOF then (.nil, (kc, txt) :: rest)
    else
      let (ts, r) := qSkipToNewline rest
      (.cons (.token kc txt) ts, r)

/-- `Parser::parse_entry` from `src/edit/quilt/parse.rs`.  A newline
met after the leading whitespace is left to the parent loop. -/
def parseEntry (toks : List QToken) : QTree × List QToken :=
  let (ws, t1) := qWsSpan toks
  match t1 with
  | [] => (.node .SERIES_ENTRY ws, [])
  | (kc, txt) :: rest =>
    if kc = .NEWLINE then (.node .SERIES_ENTRY ws, (kc, txt) :: rest)
    else if kc = .HASH then
      let (c, t2) := parseComment ((kc, txt) :: rest)
      (.node .SERIES_ENTRY (ws.append (.cons c .nil)), t2)
    else if kc = .PATCH_NAME then
      let (p, t2) := parsePatchEntry ((kc, txt) :: rest)
      (.node .SERIES_ENTRY (ws.append (.cons p .nil)), t2)
    else
      let (sk, t2) := qSkipToNewline ((kc, txt) :: rest)
      (.node .SERIES_ENTRY (ws.append sk), t2)

/-- The main loop of `Parser::parse`: bare newlines become direct
`ROOT` tokens, everything else becomes a `SERIES_ENTRY`; the loop
stops at `EOF` (which is never put into the tree).  Fuel is structural
for evaluation; every iteration consumes at least one token. -/
def parseTop : Nat → List QToken → QTreeList
  | 0, _ => .nil
  | _ + 1, [] => .nil
  | fuel + 1, (kc, txt) :: rest =>
    if kc = .EOF then .nil
    else if kc = .NEWLINE then .cons (.token kc txt) (parseTop fuel rest)
    else
      let (e, t2) := parseEntry ((kc, txt) :: rest)
      .cons e (parseTop fuel t2)

/-- `parse_series` from `src/edit/quilt/parse.rs`: tokenize and build
the `ROOT` green node. -/
def parseSeries (s : List Char) : QTree :=
  .node .ROOT (parseTop ((quiltTokenize s).length + 1) (quiltTokenize s))

/-- `SeriesEntry::as_patch_entry`: the first child *node* of kind
`PATCH_ENTRY` (token children are skipped by `children()`). -/
def qFindPatchEntryChild : QTreeList → Option QTree
  | .nil => none
  | .cons c cs =>
    match c with
    | .node .PATCH_ENTRY _ => some c
    | _ => qFindPatchEntryChild cs

/-- The token search of `PatchEntry::name`: the first token child of
kind `PATCH_NAME`, with its text. -/
def qFindNameTok : QTreeList → Option (List Char)
  | .nil => none
  | .cons c cs =>
    match c with
    | .token .PATCH_NAME txt => some txt
    | _ => qFindNameTok cs

/-- `PatchEntry::name` from `src/edit/quilt/lossless.rs`. -/
def patchEntryName : QTree → Option (List Char)
  | .node _ cs => qFindNameTok cs
  | .token _ _ => none

/-- The per-element test of `SeriesFile::remove`: the element is a
node, casts to `SeriesEntry` (kind `SERIES_ENTRY`), has a patch entry,
and that entry's name is defined. -/
def seriesEntryName : QTree → Option (List Char)
  | .node .SERIES_ENTRY cs => (qFindPatchEntryChild cs).bind patchEntryName
  | _ => none

/-- The scan of `SeriesFile::remove` over the root's children: erase
the first element whose patch-entry name equals `name`; `none` when no
element matches (`remove` returns `false` and leaves the tree
unchanged). -/
def seriesRemoveGo (name : List Char) : QTreeList → Option QTreeList
  | .nil => none
  | .cons e rest =>
    if seriesEntryName e = some name then some rest
    else (seriesRemoveGo name rest).map (fun ts => QTreeList.cons e ts)

/-- `SeriesFile::remove` from `src/edit/quilt/editor.rs`, modelled as
returning the edited tree (`none` when the entry is absent: the method
returns `false` and the tree is unchanged). -/
def seriesRemove (name : List Char) : QTree → Option QTree
  | .node k cs => (seriesRemoveGo name cs).map (fun cs2 => QTree.node k cs2)
  | .token _ _ => none

/-! ## Helper lemmas -/

theorem insertIdx_eq_take_cons_drop {α : Type} (n : Nat) (a : α) (l : List α)
    (h : n ≤ l.length) : l.insertIdx n a = l.take n ++ a :: l.drop n := by
  induction l generalizing n with
  | nil =>
    have : n = 0 := by simpa using h
    subst this
    simp [List.insertIdx]
  | cons x xs ih =>
    cases n with
    | zero => simp
    | succ m =>
      simp only [List.insertIdx_succ_cons, List.take_succ_cons, List.drop_succ_cons]
      rw [ih m (by simpa using h)]
      simp

/-- The payloads of the Context and Remove lines of a hunk-line list,
in order: these are the lines matched against the original file, and
their count is the original range of a consistent hunk. -/
def ctxRemLines (ls : List HunkLine) : List ByteStr :=
  ls.filterMap fun
    | .ContextLine b => some b
    | .RemoveLine b => some b
    | .InsertLine _ => none

/-- The payloads of the Context and Insert lines, in order: these are
the lines emitted into the patched file, and their count is the
modified range of a consistent hunk. -/
def ctxInsLines (ls : List HunkLine) : List ByteStr :=
  ls.filterMap fun
    | .ContextLine b => some b
    | .InsertLine b => some b
    | .RemoveLine _ => none

@[simp] theorem exceptMap_ok {ε α β : Type} (f : α → β) (a : α) :
    (Except.ok a : Except ε α).map f = .ok (f a) := rfl

@[simp] theorem exceptMap_error {ε α β : Type} (f : α → β) (e : ε) :
    (Except.error e : Except ε α).map f = .error e := rfl

theorem exceptMap_map {ε α β γ : Type} (f : α → β) (g : β → γ) (x : Except ε α) :
    (x.map f).map g = x.map (g ∘ f) := by cases x <;> rfl

theorem exceptMap_eq_ok {ε α β : Type} {f : α → β} {x : Except ε α} {b : β} :
    x.map f = .ok b ↔ ∃ a, x = .ok a ∧ b = f a := by
  cases x <;> simp [eq_comm]

theorem exceptMap_eq_error {ε α β : Type} {f : α → β} {x : Except ε α} {e : ε} :
    x.map f = .error e ↔ x = .error e := by
  cases x <;> simp

/-- Does hunk `h` apply cleanly at its position in `orig`?  The
Context/Remove payloads must be the original lines starting at the
1-based position `orig_pos` (the claim's matching condition), and the
hunk's start position must not lie beyond the end of the original. -/
def hunkFits (orig : List ByteStr) (h : Hunk) : Prop :=
  ctxRemLines h.lines <+: orig.drop (h.origPos - 1) ∧ h.origPos ≤ orig.length + 1

/-- Consistency of a hunk with its declared ranges, plus the
wire-format constraint that a nonempty original range starts at a
1-based position. -/
def hunkWF (h : Hunk) : Prop :=
  (ctxRemLines h.lines).length = h.origRange ∧
  (ctxInsLines h.lines).length = h.modRange ∧
  (0 < h.origRange → 1 ≤ h.origPos)

/-- Hunks sorted by original position and non-overlapping (every hunk
after the first starting at a 1-based position). -/
def hunksChain (hunks : List Hunk) : Prop :=
  List.Chain' (fun a b => a.origPos + a.origRange ≤ b.origPos ∧ 1 ≤ b.origPos) hunks

instance (orig : List ByteStr) (h : Hunk) : Decidable (hunkFits orig h) :=
  inferInstanceAs (Decidable (_ ∧ _))

instance (h : Hunk) : Decidable (hunkWF h) :=
  inferInstanceAs (Decidable (_ ∧ _ ∧ _))

instance (hs : List Hunk) : Decidable (hunksChain hs) :=
  inferInstanceAs (Decidable (List.Chain' _ hs))

/-- The first Context/Remove divergence between the remaining original
lines `ls` (the next of which is line number `n`) and a hunk-line
stack, exactly as `PatchedIter::next` reports it. -/
def firstMismatch : Nat → List ByteStr → List HunkLine → Option PatchConflict
  | _, _, [] => none
  | n, ls, .ContextLine b :: s' =>
    match ls with
    | [] => some ⟨n, [], b⟩
    | l :: ls' => if l ≠ b then some ⟨n, l, b⟩ else firstMismatch (n + 1) ls' s'
  | n, ls, .RemoveLine b :: s' =>
    match ls with
    | [] => some ⟨n, [], b⟩
    | l :: ls' => if l ≠ b then some ⟨n, l, b⟩ else firstMismatch (n + 1) ls' s'
  | n, ls, .InsertLine _ :: s' => firstMismatch n ls s'

theorem firstMismatch_eq_none_iff (stack : List HunkLine) :
    ∀ (n : Nat) (ls : List ByteStr),
      firstMismatch n ls stack = none ↔ ctxRemLines stack <+: ls := by
  induction stack with
  | nil => intro n ls; simp [firstMismatch, ctxRemLines]
  | cons hl s' ih =>
    intro n ls
    cases hl with
    | ContextLine b =>
      cases ls with
      | nil => simp [firstMismatch, ctxRemLines]
      | cons l ls' =>
        by_cases hlb : l = b
        · subst hlb
          simp [firstMismatch, ctxRemLines, ih, List.cons_prefix_cons]
        · simp [firstMismatch, ctxRemLines, hlb, List.cons_prefix_cons]
          exact fun h => absurd h.symm hlb
    | RemoveLine b =>
      cases ls with
      | nil => simp [firstMismatch, ctxRemLines]
      | cons l ls' =>
        by_cases hlb : l = b
        · subst hlb
          simp [firstMismatch, ctxRemLines, ih, List.cons_prefix_cons]
        · simp [firstMismatch, ctxRemLines, hlb, List.cons_prefix_cons]
          exact fun h => absurd h.symm hlb
    | InsertLine b =>
      simp [firstMismatch, ctxRemLines, ih]

theorem firstMismatch_eq_some (stack : List HunkLine) :
    ∀ (n : Nat) (ls : List ByteStr) (c : PatchConflict),
      firstMismatch n ls stack = some c →
      ∃ j, (ctxRemLines stack).get? j = some c.patchLine ∧ c.lineNo = n + j ∧
        ((ls.get? j = some c.origLine ∧ c.origLine ≠ c.patchLine) ∨
         (c.origLine = [] ∧ j = ls.length)) := by
  induction stack with
  | nil => intro n ls c h; simp [firstMismatch] at h
  | cons hl s' ih =>
    intro n ls c h
    cases hl with
    | ContextLine b =>
      cases ls with
      | nil =>
        simp only [firstMismatch, Option.some_inj] at h
        exact ⟨0, by simp [ctxRemLines, ← h]⟩
      | cons l ls' =>
        by_cases hlb : l = b
        · subst hlb
          simp only [firstMismatch, ne_eq, not_true_eq_false, if_false, reduceIte] at h
          obtain ⟨j, hj1, hj2, hj3⟩ := ih (n + 1) ls' c h
          refine ⟨j + 1, by simpa [ctxRemLines] using hj1, by omega, ?_⟩
          rcases hj3 with ⟨hget, hne⟩ | ⟨he, hj⟩
          · exact Or.inl ⟨by simpa using hget, hne⟩
          · exact Or.inr ⟨he, by simp [hj]⟩
        · simp only [firstMismatch, ne_eq, hlb, not_false_eq_true, if_true, reduceIte,
            Option.some_inj] at h
          exact ⟨0, by simp [ctxRemLines, ← h], by simp [← h], Or.inl (by simp [← h, hlb])⟩
    | RemoveLine b =>
      cases ls with
      | nil =>
        simp only [firstMismatch, Option.some_inj] at h
        exact ⟨0, by simp [ctxRemLines, ← h]⟩
      | cons l ls' =>
        by_cases hlb : l = b
        · subst hlb
          simp only [firstMismatch, ne_eq, not_true_eq_false, if_false, reduceIte] at h
          obtain ⟨j, hj1, hj2, hj3⟩ := ih (n + 1) ls' c h
          refine ⟨j + 1, by simpa [ctxRemLines] using hj1, by omega, ?_⟩
          rcases hj3 with ⟨hget, hne⟩ | ⟨he, hj⟩
          · exact Or.inl ⟨by simpa using hget, hne⟩
          · exact Or.inr ⟨he, by simp [hj]⟩
        · simp only [firstMismatch, ne_eq, hlb, not_false_eq_true, if_true, reduceIte,
            Option.some_inj] at h
          exact ⟨0, by simp [ctxRemLines, ← h], by simp [← h], Or.inl (by simp [← h, hlb])⟩
    | InsertLine b =>
      simp only [firstMismatch] at h
      obtain ⟨j, hj1, hj2, hj3⟩ := ih n ls c h
      exact ⟨j, by simpa [ctxRemLines] using hj1, hj2, hj3⟩

theorem patchedGo_catchup_cons {h : Hunk} {n : Nat} (hlt : n < h.origPos)
    (rest : List Hunk) (stack : List HunkLine) (l : ByteStr) (ls : List ByteStr) :
    patchedGo (l :: ls) stack (h :: rest) n =
      (patchedGo ls stack (h :: rest) (n + 1)).map (l :: ·) := by
  rw [patchedGo_cons_eq, if_pos hlt]

theorem patchedGo_catchup_nil {h : Hunk} {n : Nat} (hlt : n < h.origPos)
    (rest : List Hunk) (stack : List HunkLine) :
    patchedGo [] stack (h :: rest) n = .error ⟨n + 1, [], []⟩ := by
  rw [patchedGo_cons_eq, if_pos hlt]

theorem patchedGo_ctx_cons {h : Hunk} {n : Nat} (hge : ¬ n < h.origPos)
    (rest : List Hunk) (s' : List HunkLine) (b ol : ByteStr) (ls : List ByteStr) :
    patchedGo (ol :: ls) (.ContextLine b :: s') (h :: rest) n =
      (if ol ≠ b then .error ⟨n, ol, b⟩
       else (patchedGo ls s' (h :: rest) (n + 1)).map (b :: ·)) := by
  rw [patchedGo_cons_eq, if_neg hge]

theorem patchedGo_ctx_nil {h : Hunk} {n : Nat} (hge : ¬ n < h.origPos)
    (rest : List Hunk) (s' : List HunkLine) (b : ByteStr) :
    patchedGo [] (.ContextLine b :: s') (h :: rest) n = .error ⟨n, [], b⟩ := by
  rw [patchedGo_cons_eq, if_neg hge]

theorem patchedGo_ins {h : Hunk} {n : Nat} (hge : ¬ n < h.origPos)
    (rest : List Hunk) (s' : List HunkLine) (b : ByteStr) (ls : List ByteStr) :
    patchedGo ls (.InsertLine b :: s') (h :: rest) n =
      (patchedGo ls s' (h :: rest) n).map (b :: ·) := by
  rw [patchedGo_cons_eq, if_neg hge]

theorem patchedGo_rem_cons {h : Hunk} {n : Nat} (hge : ¬ n < h.origPos)
    (rest : List Hunk) (s' : List HunkLine) (b ol : ByteStr) (ls : List ByteStr) :
    patchedGo (ol :: ls) (.RemoveLine b :: s') (h :: rest) n =
      (if ol ≠ b then .error ⟨n, ol, b⟩
       else patchedGo ls s' (h :: rest) (n + 1)) := by
  rw [patchedGo_cons_eq, if_neg hge]

theorem patchedGo_rem_nil {h : Hunk} {n : Nat} (hge : ¬ n < h.origPos)
    (rest : List Hunk) (s' : List HunkLine) (b : ByteStr) :
    patchedGo [] (.RemoveLine b :: s') (h :: rest) n = .error ⟨n, [], b⟩ := by
  rw [patchedGo_cons_eq, if_neg hge]

theorem patchedGo_refill {h : Hunk} {n : Nat} (hge : ¬ n < h.origPos)
    (rest : List Hunk) (ls : List ByteStr) :
    patchedGo ls [] (h :: rest) n = patchedGo ls (headLines rest) rest n := by
  rw [patchedGo_cons_eq, if_neg hge]

theorem patchedGo_stack (h : Hunk) (rest : List Hunk) (stack : List HunkLine) :
    ∀ (ls : List ByteStr) (n : Nat), h.origPos ≤ n →
      patchedGo ls stack (h :: rest) n =
        match firstMismatch n ls stack with
        | some c => .error c
        | none =>
          (patchedGo (ls.drop (ctxRemLines stack).length) (headLines rest) rest
            (n + (ctxRemLines stack).length)).map (fun out => ctxInsLines stack ++ out)
  := by
  induction stack with
  | nil =>
    intro ls n hle
    rw [patchedGo_refill (by omega)]
    simp only [firstMismatch, ctxRemLines, ctxInsLines, List.filterMap_nil,
      List.length_nil, List.drop_zero, Nat.add_zero, List.nil_append]
    cases patchedGo ls (headLines rest) rest n <;> simp
  | cons hl s' ih =>
    intro ls n hle
    cases hl with
    | ContextLine b =>
      cases ls with
      | nil =>
        rw [patchedGo_ctx_nil (by omega)]
        simp [firstMismatch]
      | cons l ls' =>
        rw [patchedGo_ctx_cons (by omega)]
        by_cases hlb : l = b
        · subst hlb
          rw [if_neg (by simp)]
          rw [ih ls' (n + 1) (by omega)]
          simp only [firstMismatch, ne_eq, not_true_eq_false, if_false, reduceIte]
          cases hfm : firstMismatch (n + 1) ls' s' with
          | some c => simp
          | none =>
            simp only [ctxRemLines, ctxInsLines, List.filterMap_cons, List.length_cons,
              List.drop_succ_cons]
            rw [exceptMap_map]
            have harith : n + 1 + (ctxRemLines s').length = n + ((ctxRemLines s').length + 1) := by
              omega
            simp only [ctxRemLines] at harith
            rw [harith]
            congr 1
        · rw [if_pos (by simpa using hlb)]
          simp [firstMismatch, hlb]
    | RemoveLine b =>
      cases ls with
      | nil =>
        rw [patchedGo_rem_nil (by omega)]
        simp [firstMismatch]
      | cons l ls' =>
        rw [patchedGo_rem_cons (by omega)]
        by_cases hlb : l = b
        · subst hlb
          rw [if_neg (by simp)]
          rw [ih ls' (n + 1) (by omega)]
          simp only [firstMismatch, ne_eq, not_true_eq_false, if_false, reduceIte]
          cases hfm : firstMismatch (n + 1) ls' s' with
          | some c => simp
          | none =>
            simp only [ctxRemLines, ctxInsLines, List.filterMap_cons, List.length_cons,
              List.drop_succ_cons]
            have harith : n + 1 + (ctxRemLines s').length = n + ((ctxRemLines s').length + 1) := by
              omega
            simp only [ctxRemLines] at harith
            rw [harith]
        · rw [if_pos (by simpa using hlb)]
          simp [firstMismatch, hlb]
    | InsertLine b =>
      rw [patchedGo_ins (by omega)]
      rw [ih ls n hle]
      simp only [firstMismatch]
      cases hfm : firstMismatch n ls s' with
      | some c => simp
      | none =>
        simp only [ctxRemLines, ctxInsLines, List.filterMap_cons]
        rw [exceptMap_map]
        congr 1

theorem patchedGo_catchup (h : Hunk) (rest : List Hunk) (stack : List HunkLine) :
    ∀ (ls : List ByteStr) (n : Nat), n ≤ h.origPos →
      patchedGo ls stack (h :: rest) n =
        if ls.length + n < h.origPos then .error ⟨ls.length + n + 1, [], []⟩
        else
          (patchedGo (ls.drop (h.origPos - n)) stack (h :: rest) h.origPos).map
            (fun out => ls.take (h.origPos - n) ++ out) := by
  intro ls
  induction ls with
  | nil =>
    intro n hle
    by_cases hlt : n < h.origPos
    · rw [patchedGo_catchup_nil hlt]
      simp only [List.length_nil, Nat.zero_add]
      rw [if_pos hlt]
    · have : n = h.origPos := by omega
      subst this
      simp only [List.length_nil, Nat.zero_add, Nat.sub_self, List.drop_nil, List.take_nil]
      rw [if_neg (by omega)]
      cases patchedGo [] stack (h :: rest) h.origPos <;> simp
  | cons l ls' ih =>
    intro n hle
    by_cases hlt : n < h.origPos
    · rw [patchedGo_catchup_cons hlt]
      rw [ih (n + 1) (by omega)]
      by_cases hshort : ls'.length + (n + 1) < h.origPos
      · rw [if_pos hshort, if_pos (by simp; omega)]
        simp only [exceptMap_error]
        congr 1
        simp
        omega
      · rw [if_neg hshort, if_neg (by simp; omega)]
        rw [exceptMap_map]
        have hdrop : ls'.drop (h.origPos - (n + 1)) = (l :: ls').drop (h.origPos - n) := by
          have heq : h.origPos - n = (h.origPos - (n + 1)) + 1 := by omega
          rw [heq]
          simp
        have htake : l :: ls'.take (h.origPos - (n + 1)) = (l :: ls').take (h.origPos - n) := by
          have heq : h.origPos - n = (h.origPos - (n + 1)) + 1 := by omega
          rw [heq]
          simp
        rw [hdrop]
        congr 1
        funext out
        simp only [Function.comp]
        rw [← htake]
        simp
    · have : n = h.origPos := by omega
      subst this
      simp only [Nat.sub_self, List.take_zero, List.drop_zero, List.nil_append]
      rw [if_neg (by omega)]
      cases patchedGo (l :: ls') stack (h :: rest) h.origPos <;> simp

/-- Total Context+Remove line count of a hunk list. -/
def sumCtxRem (hs : List Hunk) : Nat :=
  (hs.map (fun h => (ctxRemLines h.lines).length)).sum

/-- Total Context+Insert line count of a hunk list. -/
def sumCtxIns (hs : List Hunk) : Nat :=
  (hs.map (fun h => (ctxInsLines h.lines).length)).sum

/-- Main characterization of `iter_exact_patched_from_hunks`: starting
at line counter `n` with the first `n - 1` original lines already
consumed, a well-formed sorted non-overlapping hunk list succeeds
exactly when every hunk fits, the output size obeys the range
arithmetic, and a failure produces exactly the conflict reported by
the first divergence. -/
theorem patchedGo_run (hunks : List Hunk) :
    ∀ (orig : List ByteStr) (n : Nat),
      (∀ h ∈ hunks, hunkWF h) → hunksChain hunks → 1 ≤ n → n - 1 ≤ orig.length →
      (∀ h0, hunks.head? = some h0 → n ≤ h0.origPos ∨ (h0.origPos ≤ 1 ∧ n = 1)) →
      ((∃ out, patchedGo (orig.drop (n - 1)) (headLines hunks) hunks n = .ok out) ↔
         ∀ h ∈ hunks, hunkFits orig h) ∧
      (∀ out, patchedGo (orig.drop (n - 1)) (headLines hunks) hunks n = .ok out →
         out.length + sumCtxRem hunks = (orig.drop (n - 1)).length + sumCtxIns hunks) ∧
      (∀ c, patchedGo (orig.drop (n - 1)) (headLines hunks) hunks n = .error c →
         c = ⟨orig.length + 2, [], []⟩ ∨
         ∃ h ∈ hunks, ∃ j, (ctxRemLines h.lines).get? j = some c.patchLine ∧
           c.lineNo = h.origPos + j ∧
           ((orig.get? (c.lineNo - 1) = some c.origLine ∧ c.origLine ≠ c.patchLine) ∨
            (c.origLine = [] ∧ c.lineNo = orig.length + 1))) := by
  induction hunks with
  | nil =>
    intro orig n _ _ _ _ _
    refine ⟨by simp [patchedGo_nil_hunks, headLines], ?_, ?_⟩
    · intro out hout
      rw [patchedGo_nil_hunks] at hout
      cases hout
      simp [sumCtxRem, sumCtxIns]
    · intro c hc
      rw [patchedGo_nil_hunks] at hc
      cases hc
  | cons h rest ih =>
    intro orig n hwf hchain hn hnle hstart
    obtain ⟨hwf1, hwf2, hwf3⟩ := hwf h (by simp)
    have hchainrest : hunksChain rest := List.Chain'.tail hchain
    have hwfrest : ∀ g ∈ rest, hunkWF g := fun g hg => hwf g (by simp [hg])
    have hlslen : (orig.drop (n - 1)).length = orig.length - (n - 1) := List.length_drop _ _
    by_cases hcaseA : n ≤ h.origPos
    case neg =>
      -- here orig_pos < n, so by the start condition orig_pos = 0 and n = 1
      have hA : h.origPos ≤ 1 ∧ n = 1 := by
        rcases hstart h rfl with hs | hs
        · omega
        · exact hs
      have hp0 : h.origPos = 0 := by omega
      have hn1 : n = 1 := hA.2
      subst hn1
      -- the hunk has no Context/Remove lines
      have hrem0 : ctxRemLines h.lines = [] := by
        have : h.origRange = 0 := by
          by_contra hne
          have := hwf3 (by omega)
          omega
        have hlen0 : (ctxRemLines h.lines).length = 0 := by omega
        exact List.eq_nil_of_length_eq_zero hlen0
      have hfm : firstMismatch 1 (orig.drop 0) h.lines = none := by
        rw [firstMismatch_eq_none_iff, hrem0]
        exact List.nil_prefix
      have hrw := patchedGo_stack h rest h.lines (orig.drop 0) 1 (by omega)
      rw [hfm] at hrw
      simp only [hrem0, List.length_nil, List.drop_zero, Nat.add_zero] at hrw
      have hstartrest : ∀ h2, rest.head? = some h2 →
          1 ≤ h2.origPos ∨ (h2.origPos ≤ 1 ∧ 1 = 1) := by
        intro h2 hh2
        cases rest with
        | nil => cases hh2
        | cons h2' t =>
          simp only [List.head?_cons, Option.some_inj] at hh2
          subst hh2
          rcases List.chain'_cons.mp hchain with ⟨⟨_, h2pos⟩, _⟩
          exact Or.inl h2pos
      have ihr := ih orig 1 hwfrest hchainrest (by omega) (by omega) hstartrest
      simp only [Nat.sub_self, List.drop_zero] at ihr hrw ⊢
      obtain ⟨ih1, ih2, ih3⟩ := ihr
      refine ⟨?_, ?_, ?_⟩
      · simp only [headLines]
        rw [hrw]
        constructor
        · rintro ⟨out, hout⟩
          rw [exceptMap_eq_ok] at hout
          obtain ⟨out', hout', -⟩ := hout
          intro g hg
          rcases List.mem_cons.mp hg with hgh | hgr
          · subst hgh
            exact ⟨by rw [hrem0]; exact List.nil_prefix, by omega⟩
          · exact (ih1.mp ⟨out', hout'⟩) g hgr
        · intro hall
          have := ih1.mpr (fun g hg => hall g (by simp [hg]))
          obtain ⟨out', hout'⟩ := this
          exact ⟨_, by rw [hout']; rfl⟩
      · intro out hout
        simp only [headLines] at hout
        rw [hrw, exceptMap_eq_ok] at hout
        obtain ⟨out', hout', hrel⟩ := hout
        have := ih2 out' hout'
        subst hrel
        simp only [sumCtxRem, sumCtxIns, List.map_cons, List.sum_cons, hrem0,
          List.length_nil, List.length_append]
        simp only [sumCtxRem, sumCtxIns] at this
        omega
      · intro c hc
        simp only [headLines] at hc
        rw [hrw, exceptMap_eq_error] at hc
        rcases ih3 c hc with hc1 | ⟨g, hg, rest'⟩
        · exact Or.inl hc1
        · exact Or.inr ⟨g, by simp [hg], rest'⟩
    case pos =>
      -- n ≤ orig_pos: catch up, then process the hunk's lines
      have hp1 : 1 ≤ h.origPos := by omega
      have hrwB := patchedGo_catchup h rest (headLines (h :: rest)) (orig.drop (n - 1)) n hcaseA
      have hcond : (orig.drop (n - 1)).length + n = orig.length + 1 := by omega
      by_cases hshort : orig.length + 1 < h.origPos
      · -- the hunk starts beyond the end of the original
        rw [if_pos (by omega)] at hrwB
        refine ⟨?_, ?_, ?_⟩
        · constructor
          · rintro ⟨out, hout⟩
            rw [hrwB] at hout
            cases hout
          · intro hall
            have := (hall h (by simp)).2
            omega
        · intro out hout
          rw [hrwB] at hout
          cases hout
        · intro c hc
          rw [hrwB] at hc
          cases hc
          exact Or.inl (by congr 1; omega)
      · -- the hunk starts within the original
        rw [if_neg (by omega)] at hrwB
        have hdropdrop : (orig.drop (n - 1)).drop (h.origPos - n) = orig.drop (h.origPos - 1) := by
          rw [List.drop_drop]
          congr 1
          omega
        rw [hdropdrop] at hrwB
        have hrwC := patchedGo_stack h rest h.lines (orig.drop (h.origPos - 1)) h.origPos
          (by omega)
        have hplen : (orig.drop (h.origPos - 1)).length = orig.length - (h.origPos - 1) :=
          List.length_drop _ _
        cases hfm : firstMismatch h.origPos (orig.drop (h.origPos - 1)) h.lines with
        | some c0 =>
          rw [hfm] at hrwC
          simp only [headLines] at hrwB
          rw [hrwC] at hrwB
          simp only [exceptMap_error] at hrwB
          have hnofit : ¬ hunkFits orig h := by
            intro hfit
            have := (firstMismatch_eq_none_iff h.lines h.origPos
              (orig.drop (h.origPos - 1))).mpr hfit.1
            rw [hfm] at this
            cases this
          refine ⟨?_, ?_, ?_⟩
          · constructor
            · rintro ⟨out, hout⟩
              simp only [headLines] at hout
              rw [hrwB] at hout
              cases hout
            · intro hall
              exact absurd (hall h (by simp)) hnofit
          · intro out hout
            simp only [headLines] at hout
            rw [hrwB] at hout
            cases hout
          · intro c hc
            simp only [headLines] at hc
            rw [hrwB] at hc
            cases hc
            obtain ⟨j, hj1, hj2, hj3⟩ := firstMismatch_eq_some h.lines h.origPos
              (orig.drop (h.origPos - 1)) c0 hfm
            refine Or.inr ⟨h, by simp, j, hj1, hj2, ?_⟩
            have hjlt : j < (ctxRemLines h.lines).length := by
              rcases List.get?_eq_some.mp hj1 with ⟨hlt, -⟩
              exact hlt
            rcases hj3 with ⟨hget, hne⟩ | ⟨he, hj⟩
            · left
              refine ⟨?_, hne⟩
              rw [List.get?_drop] at hget
              have heq : h.origPos - 1 + j = c0.lineNo - 1 := by omega
              rw [heq] at hget
              exact hget
            · right
              refine ⟨he, ?_⟩
              rw [hj2, hj, hplen]
              omega
        | none =>
          rw [hfm] at hrwC
          simp only [headLines] at hrwB
          rw [hrwC] at hrwB
          rw [exceptMap_map] at hrwB
          have hpfx : ctxRemLines h.lines <+: orig.drop (h.origPos - 1) :=
            (firstMismatch_eq_none_iff h.lines h.origPos (orig.drop (h.origPos - 1))).mp hfm
          have hklen : (ctxRemLines h.lines).length ≤ orig.length - (h.origPos - 1) := by
            have := hpfx.length_le
            omega
          have hdropdrop2 : (orig.drop (h.origPos - 1)).drop (ctxRemLines h.lines).length =
              orig.drop (h.origPos + (ctxRemLines h.lines).length - 1) := by
            rw [List.drop_drop]
            congr 1
            omega
          rw [hdropdrop2] at hrwB
          have hstartrest : ∀ h2, rest.head? = some h2 →
              h.origPos + (ctxRemLines h.lines).length ≤ h2.origPos ∨
              (h2.origPos ≤ 1 ∧ h.origPos + (ctxRemLines h.lines).length = 1) := by
            intro h2 hh2
            cases rest with
            | nil => cases hh2
            | cons h2' t =>
              simp only [List.head?_cons, Option.some_inj] at hh2
              subst hh2
              rcases List.chain'_cons.mp hchain with ⟨⟨hle2, h2pos⟩, _⟩
              exact Or.inl (by omega)
          have ihr := ih orig (h.origPos + (ctxRemLines h.lines).length)
            hwfrest hchainrest (by omega) (by omega) hstartrest
          obtain ⟨ih1, ih2, ih3⟩ := ihr
          refine ⟨?_, ?_, ?_⟩
          · simp only [headLines]
            rw [hrwB]
            constructor
            · rintro ⟨out, hout⟩
              rw [exceptMap_eq_ok] at hout
              obtain ⟨out', hout', -⟩ := hout
              intro g hg
              rcases List.mem_cons.mp hg with hgh | hgr
              · subst hgh
                exact ⟨hpfx, by omega⟩
              · exact (ih1.mp ⟨out', hout'⟩) g hgr
            · intro hall
              obtain ⟨out', hout'⟩ := ih1.mpr (fun g hg => hall g (by simp [hg]))
              exact ⟨_, by rw [hout']; rfl⟩
          · intro out hout
            simp only [headLines] at hout
            rw [hrwB, exceptMap_eq_ok] at hout
            obtain ⟨out', hout', hrel⟩ := hout
            have hihlen := ih2 out' hout'
            subst hrel
            have htakelen : (List.take (h.origPos - n) (orig.drop (n - 1))).length =
                h.origPos - n := by
              rw [List.length_take]
              omega
            simp only [Function.comp, List.length_append, htakelen, sumCtxRem, sumCtxIns,
              List.map_cons, List.sum_cons]
            simp only [sumCtxRem, sumCtxIns] at hihlen
            rw [List.length_drop] at hihlen ⊢
            omega
          · intro c hc
            simp only [headLines] at hc
            rw [hrwB, exceptMap_eq_error] at hc
            rcases ih3 c hc with hc1 | ⟨g, hg, rest'⟩
            · exact Or.inl hc1
            · exact Or.inr ⟨g, by simp [hg], rest'⟩

theorem shiftToModLinesGo_all (pos : Nat) (lines : List HunkLine) :
    ∀ (position : Nat) (shift : Int),
      position + (ctxRemLines lines).length ≤ pos →
      shiftToModLinesGo pos position shift lines =
        some (shift + ((ctxInsLines lines).length : Int) - ((ctxRemLines lines).length : Int)) := by
  induction lines with
  | nil => intro position shift _; simp [shiftToModLinesGo, ctxRemLines, ctxInsLines]
  | cons l rest ih =>
    intro position shift hle
    cases l with
    | InsertLine b =>
      simp only [ctxRemLines, ctxInsLines, List.filterMap_cons] at hle ⊢
      simp only [shiftToModLinesGo]
      rw [if_neg (by omega)]
      rw [ih position (shift + 1) (by simpa [ctxRemLines] using hle)]
      simp [ctxRemLines, ctxInsLines]
      ring
    | RemoveLine b =>
      simp only [ctxRemLines, ctxInsLines, List.filterMap_cons, List.length_cons] at hle ⊢
      simp only [shiftToModLinesGo]
      rw [if_neg (by omega), if_neg (by omega)]
      rw [ih (position + 1) (shift - 1) (by simp [ctxRemLines]; omega)]
      simp [ctxRemLines, ctxInsLines]
      ring
    | ContextLine b =>
      simp only [ctxRemLines, ctxInsLines, List.filterMap_cons, List.length_cons] at hle ⊢
      simp only [shiftToModLinesGo]
      rw [if_neg (by omega)]
      rw [ih (position + 1) shift (by simp [ctxRemLines]; omega)]
      simp [ctxRemLines, ctxInsLines]
      ring

/-! ### Round-trip lemmas for the lossless patch parser (for C1)

For every parser function `f` taking the remaining token list and
returning emitted children plus the rest, the text-preservation lemma
states that the emitted text followed by the rest's text is the
input's text; the monotonicity lemma states that the rest is no
longer than the input.  The dispatch loop then consumes everything
(each branch consumes at least one token), and the lexer's tokens
concatenate back to the input string. -/

theorem text_append : ∀ a b : PTreeList, (a.append b).text = a.text ++ b.text
  | .nil, b => by rw [PTreeList.append, PTreeList.text, List.nil_append]
  | .cons x xs, b => by
    rw [PTreeList.append, PTreeList.text, PTreeList.text, text_append xs b,
      List.append_assoc]

theorem text_token (k : PKind) (t : List Char) : (PTree.token k t).text = t := rfl

theorem text_node (k : PKind) (cs : PTreeList) : (PTree.node k cs).text = cs.text := rfl

theorem text_nil : PTreeList.nil.text = [] := rfl

theorem text_cons (x : PTree) (xs : PTreeList) :
    (PTreeList.cons x xs).text = x.text ++ xs.text := rfl

theorem tokText_nil : tokText [] = [] := rfl

theorem tokText_cons (k : PKind) (t : List Char) (r : List PTok) :
    tokText ((k, t) :: r) = t ++ tokText r := rfl

theorem pathToks_text (p : List Char) : (pathToks p).text = p := by
  unfold pathToks
  split
  · next h => simp [PTreeList.text, h]
  · simp [PTreeList.text, PTree.text]

theorem advanceN_text (n : Nat) : ∀ toks : List PTok,
    (advanceN n toks).1.text ++ tokText (advanceN n toks).2 = tokText toks := by
  induction n with
  | zero => intro toks; simp [advanceN, PTreeList.text]
  | succ m ih =>
    intro toks
    cases toks with
    | nil => simp [advanceN, PTreeList.text, tokText_nil]
    | cons h r =>
      obtain ⟨k, t⟩ := h
      have := ih r
      simp only [advanceN, tokText_cons, PTreeList.text, PTree.text]
      rw [List.append_assoc, this]

theorem advanceN_len (n : Nat) : ∀ toks : List PTok,
    (advanceN n toks).2.length ≤ toks.length := by
  induction n with
  | zero => intro toks; simp [advanceN]
  | succ m ih =>
    intro toks
    cases toks with
    | nil => simp [advanceN]
    | cons h r =>
      obtain ⟨k, t⟩ := h
      have := ih r
      simp only [advanceN, List.length_cons]
      omega

theorem advanceN_lt (n : Nat) (toks : List PTok) (h : toks ≠ []) :
    (advanceN (n + 1) toks).2.length < toks.length := by
  cases toks with
  | nil => exact absurd rfl h
  | cons hd r =>
    obtain ⟨k, t⟩ := hd
    have := advanceN_len n r
    simp only [advanceN, List.length_cons]
    omega

theorem consumeIfKind_text (k : PKind) (toks : List PTok) :
    (consumeIfKind k toks).1.text ++ tokText (consumeIfKind k toks).2 = tokText toks := by
  cases toks with
  | nil => simp [consumeIfKind, PTreeList.text, tokText_nil]
  | cons h r =>
    obtain ⟨kc, t⟩ := h
    by_cases hk : kc = k
    · simp [consumeIfKind, hk, PTreeList.text, PTree.text, tokText_cons]
    · simp [consumeIfKind, hk, PTreeList.text]

theorem consumeIfKind_len (k : PKind) (toks : List PTok) :
    (consumeIfKind k toks).2.length ≤ toks.length := by
  cases toks with
  | nil => simp [consumeIfKind]
  | cons h r =>
    obtain ⟨kc, t⟩ := h
    by_cases hk : kc = k
    · simp [consumeIfKind, hk]
    · simp [consumeIfKind, hk]

theorem skipWhitespace_text : ∀ toks : List PTok,
    (skipWhitespace toks).1.text ++ tokText (skipWhitespace toks).2 = tokText toks
  | [] => by simp [skipWhitespace, PTreeList.text, tokText_nil]
  | (kc, t) :: r => by
    by_cases hk : kc = PKind.WHITESPACE
    · have := skipWhitespace_text r
      simp only [skipWhitespace, if_pos hk, tokText_cons, PTreeList.text, PTree.text]
      rw [List.append_assoc, this]
    · simp [skipWhitespace, hk, PTreeList.text]

theorem skipWhitespace_len : ∀ toks : List PTok,
    (skipWhitespace toks).2.length ≤ toks.length
  | [] => by simp [skipWhitespace]
  | (kc, t) :: r => by
    by_cases hk : kc = PKind.WHITESPACE
    · have := skipWhitespace_len r
      simp only [skipWhitespace, if_pos hk, List.length_cons]
      omega
    · simp [skipWhitespace, hk]

theorem skipToEol_text : ∀ toks : List PTok,
    (skipToEol toks).1.text ++ tokText (skipToEol toks).2 = tokText toks
  | [] => by simp [skipToEol, PTreeList.text, tokText_nil]
  | (kc, t) :: r => by
    by_cases hk : kc = PKind.NEWLINE
    · simp [skipToEol, hk, PTreeList.text, PTree.text, tokText_cons]
    · have := skipToEol_text r
      simp only [skipToEol, if_neg hk, tokText_cons, PTreeList.text, PTree.text]
      rw [List.append_assoc, this]

theorem skipToEol_len : ∀ toks : List PTok,
    (skipToEol toks).2.length ≤ toks.length
  | [] => by simp [skipToEol]
  | (kc, t) :: r => by
    by_cases hk : kc = PKind.NEWLINE
    · simp [skipToEol, hk]
    · have := skipToEol_len r
      simp only [skipToEol, if_neg hk, List.length_cons]
      omega

theorem skipToEol_lt (toks : List PTok) (h : toks ≠ []) :
    (skipToEol toks).2.length < toks.length := by
  cases toks with
  | nil => exact absurd rfl h
  | cons hd r =>
    obtain ⟨kc, t⟩ := hd
    by_cases hk : kc = PKind.NEWLINE
    · simp [skipToEol, hk]
    · have := skipToEol_len r
      simp only [skipToEol, if_neg hk, List.length_cons]
      omega

theorem kindSpan_text (p : PKind → Bool) : ∀ toks : List PTok,
    (kindSpan p toks).1.text ++ tokText (kindSpan p toks).2 = tokText toks
  | [] => by simp [kindSpan, PTreeList.text, tokText_nil]
  | (kc, t) :: r => by
    by_cases hk : p kc = true
    · have := kindSpan_text p r
      simp only [kindSpan, if_pos hk, tokText_cons, PTreeList.text, PTree.text]
      rw [List.append_assoc, this]
    · simp [kindSpan, hk, PTreeList.text]

theorem kindSpan_len (p : PKind → Bool) : ∀ toks : List PTok,
    (kindSpan p toks).2.length ≤ toks.length
  | [] => by simp [kindSpan]
  | (kc, t) :: r => by
    by_cases hk : p kc = true
    · have := kindSpan_len p r
      simp only [kindSpan, if_pos hk, List.length_cons]
      omega
    · simp [kindSpan, hk]

theorem kindSpan_lt (p : PKind → Bool) (kc : PKind) (t : List Char)
    (r : List PTok) (h : p kc = true) :
    (kindSpan p ((kc, t) :: r)).2.length < ((kc, t) :: r).length := by
  have := kindSpan_len p r
  simp only [kindSpan, if_pos h, List.length_cons]
  omega

theorem collectPath_text (pk : PKind → Bool) : ∀ toks : List PTok,
    (collectPath pk toks).1 ++ tokText (collectPath pk toks).2 = tokText toks
  | [] => by simp [collectPath, tokText_nil]
  | (kc, t) :: r => by
    by_cases hn : kc = PKind.NEWLINE
    · simp [collectPath, hn]
    · by_cases hk : pk kc = true
      · have := collectPath_text pk r
        simp only [collectPath, if_neg hn, if_pos hk, tokText_cons]
        rw [List.append_assoc, this]
      · simp [collectPath, hn, hk]

theorem collectPath_len (pk : PKind → Bool) : ∀ toks : List PTok,
    (collectPath pk toks).2.length ≤ toks.length
  | [] => by simp [collectPath]
  | (kc, t) :: r => by
    by_cases hn : kc = PKind.NEWLINE
    · simp [collectPath, hn]
    · by_cases hk : pk kc = true
      · have := collectPath_len pk r
        simp only [collectPath, if_neg hn, if_pos hk, List.length_cons]
        omega
      · simp [collectPath, hn, hk]

theorem parseFileHeader_text (nk : PKind) (toks : List PTok) :
    (parseFileHeader nk toks).1.text ++ tokText (parseFileHeader nk toks).2 =
      tokText toks := by
  simp only [parseFileHeader, PTree.text, text_append, pathToks_text, List.append_assoc]
  rw [skipToEol_text, collectPath_text, skipWhitespace_text, advanceN_text]

theorem parseFileHeader_len (nk : PKind) (toks : List PTok) :
    (parseFileHeader nk toks).2.length ≤ toks.length := by
  simp only [parseFileHeader]
  calc (skipToEol (collectPath unifiedPathKind
          (skipWhitespace (advanceN 3 toks).2).2).2).2.length
      ≤ (collectPath unifiedPathKind (skipWhitespace (advanceN 3 toks).2).2).2.length :=
        skipToEol_len _
    _ ≤ (skipWhitespace (advanceN 3 toks).2).2.length := collectPath_len _ _
    _ ≤ (advanceN 3 toks).2.length := skipWhitespace_len _
    _ ≤ toks.length := advanceN_len 3 toks

theorem parseFileHeader_lt (nk : PKind) (toks : List PTok) (h : toks ≠ []) :
    (parseFileHeader nk toks).2.length < toks.length := by
  simp only [parseFileHeader]
  calc (skipToEol (collectPath unifiedPathKind
          (skipWhitespace (advanceN 3 toks).2).2).2).2.length
      ≤ (collectPath unifiedPathKind (skipWhitespace (advanceN 3 toks).2).2).2.length :=
        skipToEol_len _
    _ ≤ (skipWhitespace (advanceN 3 toks).2).2.length := collectPath_len _ _
    _ ≤ (advanceN 3 toks).2.length := skipWhitespace_len _
    _ < toks.length := advanceN_lt 2 toks h

theorem parseHunkRange_text (toks : List PTok) :
    (parseHunkRange toks).1.text ++ tokText (parseHunkRange toks).2 = tokText toks := by
  simp only [parseHunkRange]
  split
  · next ct r hs =>
    simp only [PTree.text, text_append, PTreeList.text, List.append_assoc, tokText_cons]
    have h3 := consumeIfKind_text PKind.NUMBER r
    have h2 := consumeIfKind_text PKind.NUMBER (advanceN 1 toks).2
    rw [hs, tokText_cons] at h2
    rw [h3, h2, advanceN_text]
  · simp only [PTree.text, text_append, List.append_assoc]
    rw [consumeIfKind_text, advanceN_text]

theorem parseHunkRange_len (toks : List PTok) :
    (parseHunkRange toks).2.length ≤ toks.length := by
  have h1 := advanceN_len 1 toks
  have h2 := consumeIfKind_len PKind.NUMBER (advanceN 1 toks).2
  simp only [parseHunkRange]
  split
  · next ct r hs =>
    have h3 := consumeIfKind_len PKind.NUMBER r
    rw [hs] at h2
    simp only [List.length_cons] at h2
    dsimp only
    omega
  · dsimp only
    omega

theorem ite_len {c : Prop} [Decidable c] {a b : PTreeList × List PTok}
    {x : List PTok} (ha : a.2.length ≤ x.length) (hb : b.2.length ≤ x.length) :
    (if c then a else b).2.length ≤ x.length := by
  split
  · exact ha
  · exact hb

theorem pairGuard_len (c : Prop) [Decidable c] (e : PTreeList) (y x : List PTok)
    (h : y.length ≤ x.length) :
    (if c then (e, y) else (PTreeList.nil, x)).2.length ≤ x.length := by
  split
  · exact h
  · exact le_refl _

theorem parseHunkHeader_text (toks : List PTok) :
    (parseHunkHeader toks).1.text ++ tokText (parseHunkHeader toks).2 = tokText toks := by
  simp only [parseHunkHeader]
  split_ifs <;>
    simp only [text_node, text_token, text_cons, text_nil, text_append, List.append_assoc,
      List.nil_append, List.append_nil, skipToEol_text, advanceN_text,
      skipWhitespace_text, parseHunkRange_text]

theorem parseHunkHeader_len (toks : List PTok) :
    (parseHunkHeader toks).2.length ≤ toks.length := by
  simp only [parseHunkHeader]
  exact le_trans (skipToEol_len _)
    (le_trans (ite_len (advanceN_len 2 _) (le_refl _))
      (le_trans (skipWhitespace_len _)
        (le_trans (ite_len (parseHunkRange_len _) (le_refl _))
          (le_trans (skipWhitespace_len _)
            (le_trans (ite_len (parseHunkRange_len _) (le_refl _))
              (le_trans (skipWhitespace_len _) (advanceN_len 2 _)))))))

theorem parseHunkHeader_lt (toks : List PTok) (h : toks ≠ []) :
    (parseHunkHeader toks).2.length < toks.length := by
  simp only [parseHunkHeader]
  exact lt_of_le_of_lt
    (le_trans (skipToEol_len _)
      (le_trans (ite_len (advanceN_len 2 _) (le_refl _))
        (le_trans (skipWhitespace_len _)
          (le_trans (ite_len (parseHunkRange_len _) (le_refl _))
            (le_trans (skipWhitespace_len _)
              (le_trans (ite_len (parseHunkRange_len _) (le_refl _))
                (skipWhitespace_len _)))))))
    (advanceN_lt 1 toks h)

theorem parseHunkLine_text (toks : List PTok) :
    (parseHunkLine toks).1.text ++ tokText (parseHunkLine toks).2 = tokText toks := by
  unfold parseHunkLine
  split <;>
    simp only [text_node, text_token, text_cons, text_nil, text_append, List.append_assoc,
      List.nil_append, List.append_nil, tokText_cons, skipToEol_text]

theorem parseHunkLine_lt (toks : List PTok) (h : toks ≠ []) :
    (parseHunkLine toks).2.length < toks.length := by
  unfold parseHunkLine
  split
  · next t r => have := skipToEol_len r; simp only [List.length_cons]; omega
  · next t r => have := skipToEol_len r; simp only [List.length_cons]; omega
  · next t r => have := skipToEol_len r; simp only [List.length_cons]; omega
  · exact skipToEol_lt toks h

theorem parseHunkLines_text (fuel : Nat) : ∀ toks : List PTok,
    (parseHunkLines fuel toks).1.text ++ tokText (parseHunkLines fuel toks).2 =
      tokText toks := by
  induction fuel with
  | zero => intro toks; simp [parseHunkLines, text_nil]
  | succ f ih =>
    intro toks
    simp only [parseHunkLines]
    split
    · simp [text_nil]
    · simp only [text_cons, List.append_assoc]
      rw [ih (parseHunkLine toks).2, parseHunkLine_text]

theorem parseHunkLines_len (fuel : Nat) : ∀ toks : List PTok,
    (parseHunkLines fuel toks).2.length ≤ toks.length := by
  induction fuel with
  | zero => intro toks; simp [parseHunkLines]
  | succ f ih =>
    intro toks
    simp only [parseHunkLines]
    split
    · exact le_refl _
    · next hne =>
      have h1 : toks ≠ [] := by
        intro he
        rw [he] at hne
        simp at hne
      have := parseHunkLine_lt toks h1
      have := ih (parseHunkLine toks).2
      dsimp only
      omega

theorem skipLinesUntilHunkEnd_text (fuel : Nat) : ∀ toks : List PTok,
    (skipLinesUntilHunkEnd fuel toks).1.text ++
      tokText (skipLinesUntilHunkEnd fuel toks).2 = tokText toks := by
  induction fuel with
  | zero => intro toks; simp [skipLinesUntilHunkEnd, text_nil]
  | succ f ih =>
    intro toks
    simp only [skipLinesUntilHunkEnd]
    split
    · simp [text_nil]
    · simp only [text_append, List.append_assoc]
      rw [ih (skipToEol toks).2, skipToEol_text]

theorem skipLinesUntilHunkEnd_len (fuel : Nat) : ∀ toks : List PTok,
    (skipLinesUntilHunkEnd fuel toks).2.length ≤ toks.length := by
  induction fuel with
  | zero => intro toks; simp [skipLinesUntilHunkEnd]
  | succ f ih =>
    intro toks
    simp only [skipLinesUntilHunkEnd]
    split
    · exact le_refl _
    · next hne =>
      have h1 : toks ≠ [] := by
        intro he
        rw [he] at hne
        simp at hne
      have := skipToEol_lt toks h1
      have := ih (skipToEol toks).2
      dsimp only
      omega

theorem parseHunk_text (fuel : Nat) (toks : List PTok) :
    (parseHunk fuel toks).1.text ++ tokText (parseHunk fuel toks).2 = tokText toks := by
  simp only [parseHunk]
  split
  · simp only [text_node, text_token, text_cons, text_nil, text_append, List.append_assoc,
      List.nil_append, List.append_nil]
    rw [parseHunkLines_text, parseHunkHeader_text]
  · simp only [text_append, List.append_assoc]
    rw [skipLinesUntilHunkEnd_text, skipToEol_text]

theorem parseHunk_len (fuel : Nat) (toks : List PTok) :
    (parseHunk fuel toks).2.length ≤ toks.length := by
  simp only [parseHunk]
  split
  · exact le_trans (parseHunkLines_len fuel _) (parseHunkHeader_len toks)
  · exact le_trans (skipLinesUntilHunkEnd_len fuel _) (skipToEol_len toks)

theorem parseHunk_lt (fuel : Nat) (toks : List PTok) (h : toks ≠ []) :
    (parseHunk fuel toks).2.length < toks.length := by
  simp only [parseHunk]
  split
  · exact lt_of_le_of_lt (parseHunkLines_len fuel _) (parseHunkHeader_lt toks h)
  · exact lt_of_le_of_lt (skipLinesUntilHunkEnd_len fuel _) (skipToEol_lt toks h)

theorem parseHunks_text (fuel : Nat) : ∀ toks : List PTok,
    (parseHunks fuel toks).1.text ++ tokText (parseHunks fuel toks).2 = tokText toks := by
  induction fuel with
  | zero => intro toks; simp [parseHunks, text_nil]
  | succ f ih =>
    intro toks
    simp only [parseHunks]
    split
    · simp only [text_append, List.append_assoc]
      rw [ih (parseHunk f toks).2, parseHunk_text]
    · simp [text_nil]

theorem parseHunks_len (fuel : Nat) : ∀ toks : List PTok,
    (parseHunks fuel toks).2.length ≤ toks.length := by
  induction fuel with
  | zero => intro toks; simp [parseHunks]
  | succ f ih =>
    intro toks
    simp only [parseHunks]
    split
    · have := parseHunk_len f toks
      have := ih (parseHunk f toks).2
      dsimp only
      omega
    · exact le_refl _

theorem parsePatchFile_text (fuel : Nat) (toks : List PTok) :
    (parsePatchFile fuel toks).1.text ++ tokText (parsePatchFile fuel toks).2 =
      tokText toks := by
  simp only [parsePatchFile]
  split_ifs <;>
    simp only [text_node, text_token, text_cons, text_nil, text_append, List.append_assoc,
      List.nil_append, List.append_nil, parseHunks_text, parseFileHeader_text]

theorem parsePatchFile_len (fuel : Nat) (toks : List PTok) :
    (parsePatchFile fuel toks).2.length ≤ toks.length := by
  simp only [parsePatchFile]
  exact le_trans (parseHunks_len fuel _)
    (le_trans (ite_len (parseFileHeader_len .NEW_FILE _) (le_refl _))
      (ite_len (parseFileHeader_len .OLD_FILE _) (le_refl _)))

theorem parsePatchFile_lt (fuel : Nat) (toks : List PTok)
    (h : atPat toks .MINUS ['-', '-', '-'] = true ∨
      atPat toks .PLUS ['+', '+', '+'] = true) :
    (parsePatchFile fuel toks).2.length < toks.length := by
  have hne : toks ≠ [] := by
    rcases h with h | h <;>
    · intro he
      rw [he] at h
      simp [atPat, curKind] at h
  simp only [parsePatchFile]
  by_cases h1 : atPat toks .MINUS ['-', '-', '-'] = true
  · rw [if_pos h1]
    exact lt_of_le_of_lt
      (le_trans (parseHunks_len fuel _)
        (ite_len (parseFileHeader_len .NEW_FILE _) (le_refl _)))
      (parseFileHeader_lt .OLD_FILE toks hne)
  · rw [if_neg h1]
    have h2 : atPat toks .PLUS ['+', '+', '+'] = true := by
      rcases h with h | h
      · exact absurd h h1
      · exact h
    rw [if_pos h2]
    exact lt_of_le_of_lt (parseHunks_len fuel _)
      (parseFileHeader_lt .NEW_FILE toks hne)

theorem parseFilePath_text (toks : List PTok) :
    (parseFilePath toks).1.text ++ tokText (parseFilePath toks).2 = tokText toks := by
  simp only [parseFilePath, pathToks_text]
  rw [collectPath_text]

theorem parseFilePath_len (toks : List PTok) :
    (parseFilePath toks).2.length ≤ toks.length := by
  simp only [parseFilePath]
  exact collectPath_len _ toks

theorem parseContextFileHeader_text (nk : PKind) (toks : List PTok) :
    (parseContextFileHeader nk toks).1.text ++
      tokText (parseContextFileHeader nk toks).2 = tokText toks := by
  simp only [parseContextFileHeader, text_node, text_append, List.append_assoc]
  rw [skipToEol_text, parseFilePath_text, skipWhitespace_text, advanceN_text]

theorem parseContextFileHeader_len (nk : PKind) (toks : List PTok) :
    (parseContextFileHeader nk toks).2.length ≤ toks.length := by
  simp only [parseContextFileHeader]
  exact le_trans (skipToEol_len _)
    (le_trans (parseFilePath_len _)
      (le_trans (skipWhitespace_len _) (advanceN_len 3 toks)))

theorem parseContextFileHeader_lt (nk : PKind) (toks : List PTok) (h : toks ≠ []) :
    (parseContextFileHeader nk toks).2.length < toks.length := by
  simp only [parseContextFileHeader]
  exact lt_of_le_of_lt
    (le_trans (skipToEol_len _)
      (le_trans (parseFilePath_len _) (skipWhitespace_len _)))
    (advanceN_lt 2 toks h)

theorem parseContextLine_text (toks : List PTok) :
    (parseContextLine toks).1.text ++ tokText (parseContextLine toks).2 =
      tokText toks := by
  unfold parseContextLine
  split <;>
    simp only [text_node, text_token, text_cons, text_nil, text_append,
      List.append_assoc, List.nil_append, List.append_nil, tokText_cons, skipToEol_text]

theorem parseContextLine_lt (toks : List PTok) (h : toks ≠ []) :
    (parseContextLine toks).2.length < toks.length := by
  unfold parseContextLine
  split
  · next t r => have := skipToEol_len r; simp only [List.length_cons]; omega
  · next t r => have := skipToEol_len r; simp only [List.length_cons]; omega
  · next t r => have := skipToEol_len r; simp only [List.length_cons]; omega
  · next t r => have := skipToEol_len r; simp only [List.length_cons]; omega
  · exact skipToEol_lt toks h

theorem parseContextLines_text (fuel : Nat) : ∀ toks : List PTok,
    (parseContextLines fuel toks).1.text ++
      tokText (parseContextLines fuel toks).2 = tokText toks := by
  induction fuel with
  | zero => intro toks; simp [parseContextLines, text_nil]
  | succ f ih =>
    intro toks
    simp only [parseContextLines]
    split
    · simp [text_nil]
    · simp only [text_cons, List.append_assoc]
      rw [ih (parseContextLine toks).2, parseContextLine_text]

theorem parseContextLines_len (fuel : Nat) : ∀ toks : List PTok,
    (parseContextLines fuel toks).2.length ≤ toks.length := by
  induction fuel with
  | zero => intro toks; simp [parseContextLines]
  | succ f ih =>
    intro toks
    simp only [parseContextLines]
    split
    · exact le_refl _
    · next hne =>
      have h1 : toks ≠ [] := by
        intro he
        rw [he] at hne
        simp at hne
      have := parseContextLine_lt toks h1
      have := ih (parseContextLine toks).2
      dsimp only
      omega

theorem parseContextSection_text (nk : PKind) (fuel : Nat) (toks : List PTok) :
    (parseContextSection nk fuel toks).1.text ++
      tokText (parseContextSection nk fuel toks).2 = tokText toks := by
  simp only [parseContextSection, text_node, text_cons, text_append, List.append_assoc]
  rw [parseContextLines_text, skipToEol_text, parseHunkRange_text,
    skipWhitespace_text, advanceN_text]

theorem parseContextSection_len (nk : PKind) (fuel : Nat) (toks : List PTok) :
    (parseContextSection nk fuel toks).2.length ≤ toks.length := by
  simp only [parseContextSection]
  exact le_trans (parseContextLines_len fuel _)
    (le_trans (skipToEol_len _)
      (le_trans (parseHunkRange_len _)
        (le_trans (skipWhitespace_len _) (advanceN_len 3 toks))))

theorem parseContextSection_lt (nk : PKind) (fuel : Nat) (toks : List PTok)
    (h : toks ≠ []) :
    (parseContextSection nk fuel toks).2.length < toks.length := by
  simp only [parseContextSection]
  exact lt_of_le_of_lt
    (le_trans (parseContextLines_len fuel _)
      (le_trans (skipToEol_len _)
        (le_trans (parseHunkRange_len _) (skipWhitespace_len _))))
    (advanceN_lt 2 toks h)

theorem parseContextSections_text (fuel : Nat) (toks : List PTok) :
    (parseContextSections fuel toks).1.text ++
      tokText (parseContextSections fuel toks).2 = tokText toks := by
  simp only [parseContextSections]
  split_ifs <;>
    simp only [text_node, text_token, text_cons, text_nil, text_append,
      List.append_assoc, List.nil_append, List.append_nil, parseContextSection_text]

theorem parseContextSections_len (fuel : Nat) (toks : List PTok) :
    (parseContextSections fuel toks).2.length ≤ toks.length := by
  simp only [parseContextSections]
  exact le_trans (ite_len (parseContextSection_len .CONTEXT_NEW_SECTION fuel _) (le_refl _))
    (ite_len (parseContextSection_len .CONTEXT_OLD_SECTION fuel _) (le_refl _))

theorem parseContextSections_lt (fuel : Nat) (toks : List PTok)
    (h : atPat toks .STAR ['*', '*', '*'] = true) :
    (parseContextSections fuel toks).2.length < toks.length := by
  have hne : toks ≠ [] := by
    intro he
    rw [he] at h
    simp [atPat, curKind] at h
  simp only [parseContextSections, if_pos h]
  exact lt_of_le_of_lt
    (ite_len (parseContextSection_len .CONTEXT_NEW_SECTION fuel _) (le_refl _))
    (parseContextSection_lt .CONTEXT_OLD_SECTION fuel toks hne)

theorem parseContextHunk_text (fuel : Nat) (toks : List PTok) :
    (parseContextHunk fuel toks).1.text ++ tokText (parseContextHunk fuel toks).2 =
      tokText toks := by
  simp only [parseContextHunk, text_node, text_cons, text_append, List.append_assoc]
  rw [parseContextSections_text, skipToEol_text, kindSpan_text]

theorem parseContextHunk_len (fuel : Nat) (toks : List PTok) :
    (parseContextHunk fuel toks).2.length ≤ toks.length := by
  simp only [parseContextHunk]
  exact le_trans (parseContextSections_len fuel _)
    (le_trans (skipToEol_len _) (kindSpan_len _ toks))

theorem parseContextHunk_lt (fuel : Nat) (toks : List PTok)
    (h : curKind toks = some .STAR) :
    (parseContextHunk fuel toks).2.length < toks.length := by
  cases toks with
  | nil => simp [curKind] at h
  | cons hd r =>
    obtain ⟨kc, t⟩ := hd
    simp only [curKind, List.head?, Option.map, Option.some.injEq] at h
    simp only [parseContextHunk]
    refine lt_of_le_of_lt
      (le_trans (parseContextSections_len fuel _) (skipToEol_len _)) ?_
    exact kindSpan_lt _ kc t r (by simp [h])

theorem parseContextHunks_text (fuel : Nat) : ∀ toks : List PTok,
    (parseContextHunks fuel toks).1.text ++
      tokText (parseContextHunks fuel toks).2 = tokText toks := by
  induction fuel with
  | zero => intro toks; simp [parseContextHunks, text_nil]
  | succ f ih =>
    intro toks
    simp only [parseContextHunks]
    split
    · simp only [text_cons, List.append_assoc]
      rw [ih (parseContextHunk f toks).2, parseContextHunk_text]
    · simp [text_nil]

theorem parseContextHunks_len (fuel : Nat) : ∀ toks : List PTok,
    (parseContextHunks fuel toks).2.length ≤ toks.length := by
  induction fuel with
  | zero => intro toks; simp [parseContextHunks]
  | succ f ih =>
    intro toks
    simp only [parseContextHunks]
    split
    · next hg =>
      have hk : curKind toks = some .STAR := by
        rcases Bool.and_eq_true_iff.mp hg with ⟨h1, _⟩
        exact of_decide_eq_true h1
      have := parseContextHunk_lt f toks hk
      have := ih (parseContextHunk f toks).2
      dsimp only
      omega
    · exact le_refl _

theorem parseContextDiffFile_text (fuel : Nat) (toks : List PTok) :
    (parseContextDiffFile fuel toks).1.text ++
      tokText (parseContextDiffFile fuel toks).2 = tokText toks := by
  simp only [parseContextDiffFile]
  split_ifs <;>
    simp only [text_node, text_token, text_cons, text_nil, text_append,
      List.append_assoc, List.nil_append, List.append_nil, parseContextHunks_text,
      parseContextFileHeader_text]

theorem parseContextDiffFile_lt (fuel : Nat) (toks : List PTok)
    (h : atPat toks .STAR ['*', '*', '*'] = true) :
    (parseContextDiffFile fuel toks).2.length < toks.length := by
  have hne : toks ≠ [] := by
    intro he
    rw [he] at h
    simp [atPat, curKind] at h
  simp only [parseContextDiffFile, if_pos h]
  exact lt_of_le_of_lt
    (le_trans (parseContextHunks_len fuel _)
      (ite_len (parseContextFileHeader_len .CONTEXT_NEW_FILE _) (le_refl _)))
    (parseContextFileHeader_lt .CONTEXT_OLD_FILE toks hne)

theorem parseContextHunkNoSep_text (fuel : Nat) (toks : List PTok) :
    (parseContextHunkNoSep fuel toks).1.text ++
      tokText (parseContextHunkNoSep fuel toks).2 = tokText toks := by
  simp only [parseContextHunkNoSep, text_node]
  rw [parseContextSections_text]

theorem parseContextHunkNoSep_lt (fuel : Nat) (toks : List PTok)
    (h : atPat toks .STAR ['*', '*', '*'] = true) :
    (parseContextHunkNoSep fuel toks).2.length < toks.length := by
  simp only [parseContextHunkNoSep]
  exact parseContextSections_lt fuel toks h

theorem parseEdContentLines_text (fuel : Nat) : ∀ toks : List PTok,
    (parseEdContentLines fuel toks).1.text ++
      tokText (parseEdContentLines fuel toks).2 = tokText toks := by
  induction fuel with
  | zero => intro toks; simp [parseEdContentLines, text_nil]
  | succ f ih =>
    intro toks
    simp only [parseEdContentLines]
    split
    · simp [text_nil, tokText_nil]
    · simp [text_cons, text_token, text_nil, tokText_cons]
    · simp only [text_cons, text_node, List.append_assoc]
      rw [ih (skipToEol toks).2, skipToEol_text]

theorem parseEdContentLines_len (fuel : Nat) : ∀ toks : List PTok,
    (parseEdContentLines fuel toks).2.length ≤ toks.length := by
  induction fuel with
  | zero => intro toks; simp [parseEdContentLines]
  | succ f ih =>
    intro toks
    simp only [parseEdContentLines]
    split
    · simp
    · simp only [List.length_cons]
      omega
    · next h0 hne =>
      have h1 : toks ≠ [] := h0
      have := skipToEol_lt toks h1
      have := ih (skipToEol toks).2
      dsimp only
      omega

theorem parseEdCommand_text (fuel : Nat) (toks : List PTok) :
    (parseEdCommand fuel toks).1.text ++ tokText (parseEdCommand fuel toks).2 =
      tokText toks := by
  have h2 := kindSpan_text (fun k => k = PKind.NUMBER || k = PKind.COMMA) toks
  simp only [parseEdCommand]
  split
  · next lt r hs =>
    rw [hs, tokText_cons] at h2
    simp only [text_node, text_token, text_cons, text_nil, text_append,
      List.append_assoc, List.nil_append, List.append_nil, parseEdContentLines_text,
      skipToEol_text, h2]
  · next lt r hs =>
    rw [hs, tokText_cons] at h2
    simp only [text_node, text_token, text_cons, text_nil, text_append,
      List.append_assoc, List.nil_append, List.append_nil, skipToEol_text, h2]
  · next lt r hs =>
    rw [hs, tokText_cons] at h2
    simp only [text_node, text_token, text_cons, text_nil, text_append,
      List.append_assoc, List.nil_append, List.append_nil, parseEdContentLines_text,
      skipToEol_text, h2]
  · simp only [text_node, text_token, text_cons, text_nil, text_append,
      List.append_assoc, List.nil_append, List.append_nil, skipToEol_text, h2]

theorem parseEdCommand_lt (fuel : Nat) (toks : List PTok)
    (h : curKind toks = some .NUMBER) :
    (parseEdCommand fuel toks).2.length < toks.length := by
  cases toks with
  | nil => simp [curKind] at h
  | cons hd r0 =>
    obtain ⟨kc, t0⟩ := hd
    simp only [curKind, List.head?, Option.map, Option.some.injEq] at h
    have hn1 := kindSpan_lt (fun k => k = PKind.NUMBER || k = PKind.COMMA) kc t0 r0
      (by simp [h])
    simp only [parseEdCommand]
    split
    · next lt r hs =>
      have hr : r.length < (kindSpan (fun k => k = PKind.NUMBER || k = PKind.COMMA)
          ((kc, t0) :: r0)).2.length + 1 := by
        rw [hs]
        simp only [List.length_cons]
        omega
      have := parseEdContentLines_len fuel (skipToEol r).2
      have := skipToEol_len r
      dsimp only
      omega
    · next lt r hs =>
      have hr : r.length < (kindSpan (fun k => k = PKind.NUMBER || k = PKind.COMMA)
          ((kc, t0) :: r0)).2.length + 1 := by
        rw [hs]
        simp only [List.length_cons]
        omega
      have := skipToEol_len r
      dsimp only
      omega
    · next lt r hs =>
      have hr : r.length < (kindSpan (fun k => k = PKind.NUMBER || k = PKind.COMMA)
          ((kc, t0) :: r0)).2.length + 1 := by
        rw [hs]
        simp only [List.length_cons]
        omega
      have := parseEdContentLines_len fuel (skipToEol r).2
      have := skipToEol_len r
      dsimp only
      omega
    · have := skipToEol_len (kindSpan (fun k => k = PKind.NUMBER || k = PKind.COMMA)
        ((kc, t0) :: r0)).2
      dsimp only
      omega

theorem parseNormalLines_text (guard lineKind : PKind) (fuel : Nat) :
    ∀ toks : List PTok,
    (parseNormalLines guard lineKind fuel toks).1.text ++
      tokText (parseNormalLines guard lineKind fuel toks).2 = tokText toks := by
  induction fuel with
  | zero => intro toks; simp [parseNormalLines, text_nil]
  | succ f ih =>
    intro toks
    simp only [parseNormalLines]
    split
    · next kc t rest =>
      split_ifs
      · simp only [text_node, text_token, text_cons, text_nil, text_append,
          List.append_assoc, List.nil_append, List.append_nil, tokText_cons]
        rw [ih (skipToEol (skipWhitespace rest).2).2, skipToEol_text, skipWhitespace_text]
      · simp [text_nil]
    · simp [text_nil, tokText_nil]

theorem parseNormalLines_len (guard lineKind : PKind) (fuel : Nat) :
    ∀ toks : List PTok,
    (parseNormalLines guard lineKind fuel toks).2.length ≤ toks.length := by
  induction fuel with
  | zero => intro toks; simp [parseNormalLines]
  | succ f ih =>
    intro toks
    simp only [parseNormalLines]
    split
    · next kc t rest =>
      split_ifs
      · have := skipWhitespace_len rest
        have := skipToEol_len (skipWhitespace rest).2
        have := ih (skipToEol (skipWhitespace rest).2).2
        dsimp only
        simp only [List.length_cons]
        omega
      · exact le_refl _
    · simp

theorem normalCmdTok_text (x : List PTok) :
    (normalCmdTok x).1.text ++ tokText (normalCmdTok x).2 = tokText x := by
  unfold normalCmdTok
  split <;>
    simp [text_cons, text_token, text_nil, tokText_cons]

theorem normalCmdTok_len (x : List PTok) : (normalCmdTok x).2.length ≤ x.length := by
  unfold normalCmdTok
  split <;> simp

theorem parseNormalHunk_text (fuel : Nat) (toks : List PTok) :
    (parseNormalHunk fuel toks).1.text ++ tokText (parseNormalHunk fuel toks).2 =
      tokText toks := by
  simp only [parseNormalHunk]
  split_ifs <;>
    simp only [text_node, text_token, text_cons, text_nil, text_append,
      List.append_assoc, List.nil_append, List.append_nil, parseNormalLines_text,
      advanceN_text, skipToEol_text, kindSpan_text, normalCmdTok_text]

theorem parseNormalHunk_lt (fuel : Nat) (toks : List PTok)
    (h : curKind toks = some .NUMBER) :
    (parseNormalHunk fuel toks).2.length < toks.length := by
  cases toks with
  | nil => simp [curKind] at h
  | cons hd r0 =>
    obtain ⟨kc, t0⟩ := hd
    simp only [curKind, List.head?, Option.map, Option.some.injEq] at h
    have hn1 := kindSpan_lt (fun k => k = PKind.NUMBER || k = PKind.COMMA) kc t0 r0
      (by simp [h])
    simp only [parseNormalHunk]
    exact lt_of_le_of_lt
      (le_trans (pairGuard_len _ _ _ _ (parseNormalLines_len _ _ fuel _))
        (le_trans (pairGuard_len _ _ _ _ (le_trans (skipToEol_len _) (advanceN_len 3 _)))
          (le_trans (pairGuard_len _ _ _ _ (parseNormalLines_len _ _ fuel _))
            (le_trans (skipToEol_len _)
              (le_trans (kindSpan_len _ _) (normalCmdTok_len _))))))
      hn1

theorem looksLikeNormalDiff_num {toks : List PTok}
    (h : looksLikeNormalDiff toks = true) : curKind toks = some .NUMBER := by
  unfold looksLikeNormalDiff at h
  split at h
  · next heq => exact heq
  · simp at h

theorem looksLikeEdCommand_num {toks : List PTok}
    (h : looksLikeEdCommand toks = true) : curKind toks = some .NUMBER := by
  unfold looksLikeEdCommand at h
  split at h
  · next heq => exact heq
  · simp at h

theorem parsePatchGo_text (fuel : Nat) : ∀ toks : List PTok,
    (parsePatchGo fuel toks).1.text ++ tokText (parsePatchGo fuel toks).2 =
      tokText toks := by
  induction fuel with
  | zero => intro toks; simp [parsePatchGo, text_nil]
  | succ f ih =>
    intro toks
    cases toks with
    | nil => simp [parsePatchGo, text_nil, tokText_nil]
    | cons t0 rest =>
      simp only [parsePatchGo]
      split_ifs <;>
        simp only [text_node, text_token, text_cons, text_nil, text_append,
          List.append_assoc, List.nil_append, List.append_nil, ih,
          parseContextHunkNoSep_text, parseContextDiffFile_text, parsePatchFile_text,
          parseNormalHunk_text, parseEdCommand_text, skipToEol_text]

theorem parsePatchGo_rest (fuel : Nat) : ∀ toks : List PTok, toks.length ≤ fuel →
    (parsePatchGo fuel toks).2 = [] := by
  induction fuel with
  | zero =>
    intro toks h
    have he : toks = [] := List.eq_nil_of_length_eq_zero (Nat.le_zero.mp h)
    subst he
    simp [parsePatchGo]
  | succ f ih =>
    intro toks hlen
    cases toks with
    | nil => simp [parsePatchGo]
    | cons t0 rest =>
      have hne : (t0 :: rest) ≠ ([] : List PTok) := by simp
      simp only [List.length_cons] at hlen
      simp only [parsePatchGo]
      split_ifs with h1 h2 h3 h4 h5 h6
      · dsimp only
        apply ih
        have := parseContextHunkNoSep_lt f (t0 :: rest) h1
        simp only [List.length_cons] at this
        omega
      · dsimp only
        apply ih
        have := parseContextDiffFile_lt f (t0 :: rest) h1
        simp only [List.length_cons] at this
        omega
      · dsimp only
        apply ih
        have hm : atPat (t0 :: rest) .MINUS ['-', '-', '-'] = true := by
          rcases Bool.and_eq_true_iff.mp h3 with ⟨h31, _⟩
          rcases Bool.and_eq_true_iff.mp h31 with ⟨h32, _⟩
          exact h32
        have := parsePatchFile_lt f (t0 :: rest) (Or.inl hm)
        simp only [List.length_cons] at this
        omega
      · dsimp only
        apply ih
        have := parsePatchFile_lt f (t0 :: rest) (Or.inr h4)
        simp only [List.length_cons] at this
        omega
      · dsimp only
        apply ih
        have := parseNormalHunk_lt f (t0 :: rest) (looksLikeNormalDiff_num h5)
        simp only [List.length_cons] at this
        omega
      · dsimp only
        apply ih
        have := parseEdCommand_lt f (t0 :: rest) (looksLikeEdCommand_num h6)
        simp only [List.length_cons] at this
        omega
      · dsimp only
        apply ih
        have := skipToEol_lt (t0 :: rest) hne
        simp only [List.length_cons] at this
        omega

theorem dropWhile_len {α : Type} (p : α → Bool) : ∀ l : List α,
    (l.dropWhile p).length ≤ l.length
  | [] => by simp
  | c :: rest => by
    by_cases hc : p c = true
    · have := dropWhile_len p rest
      rw [List.dropWhile_cons, if_pos hc]
      simp only [List.length_cons]
      omega
    · rw [List.dropWhile_cons, if_neg hc]

theorem textSpanGo_append : ∀ (l : List Char) (prev : Char),
    (textSpanGo l prev).1 ++ (textSpanGo l prev).2 = l
  | [], _ => rfl
  | c :: rest, prev => by
    simp only [textSpanGo]
    split_ifs
    · rfl
    · rfl
    · simp only [List.cons_append, textSpanGo_append rest c]

theorem textSpanGo_len : ∀ (l : List Char) (prev : Char),
    (textSpanGo l prev).2.length ≤ l.length
  | [], _ => by simp [textSpanGo]
  | c :: rest, prev => by
    simp only [textSpanGo]
    split_ifs
    · simp
    · simp
    · have := textSpanGo_len rest c
      simp only [List.length_cons]
      omega

set_option maxHeartbeats 2000000 in
theorem lexGo_text : ∀ (fuel : Nat) (rem : List Char) (sol : Bool) (prev : Option Char),
    rem.length ≤ fuel → tokText (lexGo fuel rem sol prev) = rem := by
  intro fuel
  induction fuel with
  | zero =>
    intro rem sol prev h
    have he : rem = [] := List.eq_nil_of_length_eq_zero (Nat.le_zero.mp h)
    subst he
    simp [lexGo, tokText_nil]
  | succ f ih =>
    intro rem sol prev h
    cases rem with
    | nil => simp [lexGo, tokText_nil]
    | cons c rest =>
      simp only [List.length_cons] at h
      have hrest : rest.length ≤ f := by omega
      simp only [lexGo]
      by_cases h1 : c = '\n'
      · rw [if_pos h1, tokText_cons, ih _ _ _ hrest]
        simp
      · rw [if_neg h1]
        by_cases h2 : c = '\r'
        · rw [if_pos h2]
          split
          · next rest2 =>
            rw [tokText_cons, ih _ _ _ (by simp only [List.length_cons] at hrest ⊢; omega)]
            simp [h2]
          · rw [tokText_cons, ih _ _ _ hrest]
            simp [h2]
        · rw [if_neg h2]
          by_cases h3 : c = ' '
          · rw [if_pos h3]
            by_cases hsol : sol = true
            · rw [if_pos hsol, tokText_cons, ih _ _ _ hrest]
              simp [h3]
            · rw [if_neg hsol, tokText_cons, ih _ _ _ (le_trans (dropWhile_len _ _) hrest)]
              simp [List.takeWhile_append_dropWhile]
          · rw [if_neg h3]
            by_cases h4 : c = '\t'
            · rw [if_pos h4, tokText_cons, ih _ _ _ (le_trans (dropWhile_len _ _) hrest)]
              simp [List.takeWhile_append_dropWhile]
            · rw [if_neg h4]
              by_cases h5 : c = '-'
              · rw [if_pos h5, tokText_cons, ih _ _ _ hrest]
                simp
              · rw [if_neg h5]
                by_cases h6 : c = '+'
                · rw [if_pos h6, tokText_cons, ih _ _ _ hrest]
                  simp
                · rw [if_neg h6]
                  by_cases h7 : c = '@'
                  · rw [if_pos h7, tokText_cons, ih _ _ _ hrest]
                    simp
                  · rw [if_neg h7]
                    by_cases h8 : c = ','
                    · rw [if_pos h8, tokText_cons, ih _ _ _ hrest]
                      simp
                    · rw [if_neg h8]
                      by_cases h9 : c = ':'
                      · rw [if_pos h9, tokText_cons, ih _ _ _ hrest]
                        simp
                      · rw [if_neg h9]
                        by_cases h10 : c = '.'
                        · rw [if_pos h10, tokText_cons, ih _ _ _ hrest]
                          simp
                        · rw [if_neg h10]
                          by_cases h11 : c = '/'
                          · rw [if_pos h11, tokText_cons, ih _ _ _ hrest]
                            simp
                          · rw [if_neg h11]
                            by_cases h12 : c = '*'
                            · rw [if_pos h12, tokText_cons, ih _ _ _ hrest]
                              simp
                            · rw [if_neg h12]
                              by_cases h13 : c = '!'
                              · rw [if_pos h13, tokText_cons, ih _ _ _ hrest]
                                simp
                              · rw [if_neg h13]
                                by_cases h14 : c = '<'
                                · rw [if_pos h14, tokText_cons, ih _ _ _ hrest]
                                  simp
                                · rw [if_neg h14]
                                  by_cases h15 : c = '>'
                                  · rw [if_pos h15, tokText_cons, ih _ _ _ hrest]
                                    simp
                                  · rw [if_neg h15]
                                    by_cases h16 : c = '\\'
                                    · rw [if_pos h16, tokText_cons, ih _ _ _ hrest]
                                      simp
                                    · rw [if_neg h16]
                                      by_cases h17 : (c = 'a' && prevIsDigit prev) = true
                                      · rw [if_pos h17, tokText_cons, ih _ _ _ hrest]
                                        simp
                                      · rw [if_neg h17]
                                        by_cases h18 : (c = 'c' && prevIsDigit prev) = true
                                        · rw [if_pos h18, tokText_cons, ih _ _ _ hrest]
                                          simp
                                        · rw [if_neg h18]
                                          by_cases h19 : (c = 'd' && prevIsDigit prev) = true
                                          · rw [if_pos h19, tokText_cons, ih _ _ _ hrest]
                                            simp
                                          · rw [if_neg h19]
                                            by_cases h20 : isDigitChar c = true
                                            · rw [if_pos h20, tokText_cons, ih _ _ _ (le_trans (dropWhile_len _ _) hrest)]
                                              simp [List.takeWhile_append_dropWhile]
                                            · rw [if_neg h20]
                                              rw [tokText_cons, ih _ _ _ (le_trans (textSpanGo_len rest c) hrest)]
                                              simp [textSpanGo_append]

/-- The lexer's tokens concatenate back to the input. -/
theorem lex_text (s : List Char) : tokText (lex s) = s :=
  lexGo_text (s.length + 1) s true none (by omega)

/-! ### Decimal rendering and header-regex lemmas (for C5) -/

theorem natToDigitsGo_eq (n : Nat) : ∀ acc, natToDigitsGo n acc = natToDigits n ++ acc := by
  induction n using Nat.strong_induction_on with
  | _ n ih =>
    intro acc
    by_cases hlt : n < 10
    · have h1 : ∀ a : ByteStr, natToDigitsGo n a = (48 + n) :: a := by
        intro a
        rw [natToDigitsGo]
        rw [dif_pos hlt]
      rw [natToDigits, h1, h1]
      simp
    · have hdiv : n / 10 < n := Nat.div_lt_self (by omega) (by omega)
      have h1 : ∀ a : ByteStr, natToDigitsGo n a = natToDigitsGo (n / 10) ((48 + n % 10) :: a) := by
        intro a
        rw [natToDigitsGo]
        rw [dif_neg hlt]
      rw [natToDigits, h1, h1]
      rw [ih (n / 10) hdiv ((48 + n % 10) :: acc), ih (n / 10) hdiv [48 + n % 10]]
      simp

theorem natToDigits_mem (n : Nat) : ∀ c ∈ natToDigits n, 48 ≤ c ∧ c ≤ 57 := by
  induction n using Nat.strong_induction_on with
  | _ n ih =>
    intro c hc
    by_cases hlt : n < 10
    · rw [natToDigits, natToDigitsGo, dif_pos hlt] at hc
      simp at hc
      omega
    · have hdiv : n / 10 < n := Nat.div_lt_self (by omega) (by omega)
      rw [natToDigits, natToDigitsGo, dif_neg hlt, natToDigitsGo_eq] at hc
      rcases List.mem_append.mp hc with hc1 | hc2
      · exact ih (n / 10) hdiv c hc1
      · simp at hc2
        have hm : n % 10 < 10 := Nat.mod_lt n (by omega)
        omega

theorem natToDigits_ne_nil (n : Nat) : natToDigits n ≠ [] := by
  by_cases hlt : n < 10
  · rw [natToDigits, natToDigitsGo, dif_pos hlt]
    simp
  · rw [natToDigits, natToDigitsGo, dif_neg hlt, natToDigitsGo_eq]
    simp

theorem digitsVal_append_singleton (xs : ByteStr) (c : Nat) :
    digitsVal (xs ++ [c]) = digitsVal xs * 10 + (c - 48) := by
  unfold digitsVal
  rw [List.foldl_append]
  rfl

theorem digitsVal_natToDigits (n : Nat) : digitsVal (natToDigits n) = n := by
  induction n using Nat.strong_induction_on with
  | _ n ih =>
    by_cases hlt : n < 10
    · rw [natToDigits, natToDigitsGo, dif_pos hlt]
      unfold digitsVal
      simp
    · have hdiv : n / 10 < n := Nat.div_lt_self (by omega) (by omega)
      rw [natToDigits, natToDigitsGo, dif_neg hlt, natToDigitsGo_eq,
        digitsVal_append_singleton, ih (n / 10) hdiv]
      omega

theorem parseUsize_natToDigits {n : Nat} (hn : n < 2 ^ 64) :
    parseUsize (natToDigits n) = some n := by
  have hne := natToDigits_ne_nil n
  have hmem := natToDigits_mem n
  obtain ⟨c, rest, hd⟩ : ∃ c rest, natToDigits n = c :: rest := by
    cases hnd : natToDigits n with
    | nil => exact absurd hnd hne
    | cons a t => exact ⟨a, t, rfl⟩
  have hc48 : 48 ≤ c ∧ c ≤ 57 := hmem c (by rw [hd]; simp)
  have hall : ((c :: rest).all isDigitByte) = true := by
    rw [← hd]
    simp only [List.all_eq_true]
    intro x hx
    have hx48 := hmem x hx
    simp only [isDigitByte, Bool.and_eq_true, decide_eq_true_eq]
    omega
  rw [hd]
  unfold parseUsize
  simp only []
  rw [if_neg (show ¬ c = 43 by omega)]
  rw [if_neg (by simp)]
  rw [if_pos hall]
  rw [← hd, digitsVal_natToDigits]
  rw [if_pos hn]

theorem splitAtByte_append {b : Nat} {xs : ByteStr} (hb : ¬ b ∈ xs) (ys : ByteStr) :
    splitAtByte b (xs ++ b :: ys) = some (xs, ys) := by
  induction xs with
  | nil => simp [splitAtByte]
  | cons c rest ih =>
    have hcb : ¬ c = b := by
      intro hh
      exact hb (by simp [hh])
    rw [List.cons_append, splitAtByte, if_neg hcb, ih (fun hh => hb (by simp [hh]))]
    rfl

theorem splitOnByte_no_sep {b : Nat} {xs : ByteStr} (hb : ¬ b ∈ xs) :
    splitOnByte b xs = [xs] := by
  induction xs with
  | nil => rfl
  | cons c rest ih =>
    have hcb : ¬ c = b := fun hh => hb (by simp [hh])
    rw [splitOnByte, if_neg hcb, ih (fun hh => hb (by simp [hh]))]

theorem splitOnByte_append {b : Nat} {xs : ByteStr} (hb : ¬ b ∈ xs) (ys : ByteStr) :
    splitOnByte b (xs ++ b :: ys) = xs :: splitOnByte b ys := by
  induction xs with
  | nil => simp [splitOnByte]
  | cons c rest ih =>
    have hcb : ¬ c = b := fun hh => hb (by simp [hh])
    rw [List.cons_append, splitOnByte, if_neg hcb, ih (fun hh => hb (by simp [hh]))]

theorem rangeStr_mem (p r : Nat) :
    ∀ c ∈ Hunk.rangeStr p r, (48 ≤ c ∧ c ≤ 57) ∨ c = 44 := by
  intro c hc
  unfold Hunk.rangeStr at hc
  by_cases hr : r = 1
  · rw [if_pos hr] at hc
    exact Or.inl (natToDigits_mem p c hc)
  · rw [if_neg hr] at hc
    rcases List.mem_append.mp hc with hc1 | hc2
    · rcases List.mem_append.mp hc1 with hc3 | hc4
      · exact Or.inl (natToDigits_mem p c hc3)
      · simp at hc4
        exact Or.inr hc4
    · exact Or.inl (natToDigits_mem r c hc2)

theorem parseRange_rangeStr {p r : Nat} (hp : p < 2 ^ 64) (hr : r < 2 ^ 64) :
    parseRange (Hunk.rangeStr p r) = some (p, r) := by
  unfold Hunk.rangeStr parseRange
  by_cases h1 : r = 1
  · rw [if_pos h1]
    rw [splitOnByte_no_sep (by
      intro hmem
      have := natToDigits_mem p 44 hmem
      omega)]
    simp only []
    rw [parseUsize_natToDigits hp]
    have : parseUsize (bytes "1") = some 1 := by decide
    rw [this]
    rw [h1]
  · rw [if_neg h1]
    have hsplit : natToDigits p ++ [44] ++ natToDigits r = natToDigits p ++ 44 :: natToDigits r := by
      simp
    rw [hsplit]
    rw [splitOnByte_append (by
      intro hmem
      have := natToDigits_mem p 44 hmem
      omega)]
    rw [splitOnByte_no_sep (by
      intro hmem
      have := natToDigits_mem r 44 hmem
      omega)]
    simp only []
    rw [parseUsize_natToDigits hp, parseUsize_natToDigits hr]

theorem bytes_atat_dash : bytes "@@ -" = [64, 64, 32, 45] := by rfl

theorem bytes_sp_plus : bytes " +" = [32, 43] := by rfl

theorem bytes_sp_atat : bytes " @@" = [32, 64, 64] := by rfl

theorem fromHeaderMatch_cons (c : Nat) (rest : ByteStr) :
    fromHeaderMatch (c :: rest) =
      (match fromHeaderTryAt (c :: rest) with
       | some r => some r
       | none => fromHeaderMatch rest) := rfl

theorem fromHeaderTryAt_open (ao : ByteStr) :
    fromHeaderTryAt (64 :: 64 :: 32 :: ao) =
      (match splitAtByte 64 ao with
       | none => none
       | some (pre, post) =>
         match post with
         | 64 :: afterClose =>
           if pre.getLast? = some 32 then
             match afterClose with
             | 32 :: tailArea =>
               match splitAtByte 10 tailArea with
               | some (t, _) => some (pre.dropLast, some t)
               | none => none
             | 10 :: _ => some (pre.dropLast, none)
             | _ => none
           else none
         | _ => none) := rfl

theorem notMem_rangeStr_of_special {p r c : Nat} (hc : (48 ≤ c ∧ c ≤ 57) → False)
    (hc44 : c = 44 → False) : ¬ c ∈ Hunk.rangeStr p r := by
  intro hm
  rcases rangeStr_mem p r c hm with hd | hd
  · exact hc hd
  · exact hc44 hd

theorem utf8Lossy_space (t : ByteStr) : utf8Lossy (32 :: t) = 32 :: utf8Lossy t := rfl

theorem fromHeaderMatch_getHeader (h : Hunk)
    (htail : ∀ t, h.tail = some t → ¬ 10 ∈ t)
    (hloss : ∀ t, h.tail = some t → utf8Lossy t = t) :
    fromHeaderMatch h.getHeader =
      some (45 :: Hunk.rangeStr h.origPos h.origRange ++
        32 :: 43 :: Hunk.rangeStr h.modPos h.modRange, h.tail) := by
  have h64R1 : ¬ (64 : Nat) ∈ Hunk.rangeStr h.origPos h.origRange :=
    notMem_rangeStr_of_special (by omega) (by omega)
  have h64R2 : ¬ (64 : Nat) ∈ Hunk.rangeStr h.modPos h.modRange :=
    notMem_rangeStr_of_special (by omega) (by omega)
  have h64pre : ¬ (64 : Nat) ∈ (45 :: Hunk.rangeStr h.origPos h.origRange ++
      32 :: 43 :: (Hunk.rangeStr h.modPos h.modRange ++ [32])) := by
    intro hm
    simp at hm
    rcases hm with hm | hm
    · exact h64R1 hm
    · exact h64R2 hm
  cases ht : h.tail with
  | none =>
    unfold Hunk.getHeader
    rw [ht, bytes_atat_dash, bytes_sp_plus, bytes_sp_atat]
    simp only [List.cons_append, List.append_assoc, List.nil_append]
    rw [fromHeaderMatch_cons, fromHeaderTryAt_open]
    have hshape : 45 :: (Hunk.rangeStr h.origPos h.origRange ++
        32 :: 43 :: (Hunk.rangeStr h.modPos h.modRange ++ 32 :: 64 :: 64 :: [10])) =
        (45 :: Hunk.rangeStr h.origPos h.origRange ++
          32 :: 43 :: (Hunk.rangeStr h.modPos h.modRange ++ [32])) ++
          64 :: (64 :: [10]) := by
      simp
    rw [hshape, splitAtByte_append h64pre]
    simp only []
    have hpre : 45 :: Hunk.rangeStr h.origPos h.origRange ++
        32 :: 43 :: (Hunk.rangeStr h.modPos h.modRange ++ [32]) =
        (45 :: Hunk.rangeStr h.origPos h.origRange ++
          32 :: 43 :: Hunk.rangeStr h.modPos h.modRange) ++ [32] := by
      simp
    rw [hpre, List.getLast?_concat, List.dropLast_concat]
    simp
  | some t =>
    have ht10 : ¬ (10 : Nat) ∈ t := htail t ht
    have hlt := hloss t ht
    unfold Hunk.getHeader
    rw [ht]
    simp only []
    rw [utf8Lossy_space, hlt, bytes_atat_dash, bytes_sp_plus, bytes_sp_atat]
    simp only [List.cons_append, List.append_assoc, List.nil_append]
    rw [fromHeaderMatch_cons, fromHeaderTryAt_open]
    have hshape : 45 :: (Hunk.rangeStr h.origPos h.origRange ++
        32 :: 43 :: (Hunk.rangeStr h.modPos h.modRange ++ 32 :: 64 :: 64 :: 32 :: (t ++ [10]))) =
        (45 :: Hunk.rangeStr h.origPos h.origRange ++
          32 :: 43 :: (Hunk.rangeStr h.modPos h.modRange ++ [32])) ++
          64 :: (64 :: 32 :: (t ++ [10])) := by
      simp
    rw [hshape, splitAtByte_append h64pre]
    simp only []
    have hpre : 45 :: Hunk.rangeStr h.origPos h.origRange ++
        32 :: 43 :: (Hunk.rangeStr h.modPos h.modRange ++ [32]) =
        (45 :: Hunk.rangeStr h.origPos h.origRange ++
          32 :: 43 :: Hunk.rangeStr h.modPos h.modRange) ++ [32] := by
      simp
    rw [hpre, List.getLast?_concat, List.dropLast_concat]
    rw [splitAtByte_append ht10]
    simp

/-! ## Claim theorems -/

theorem sum_map_int_sub (hs : List Hunk) :
    (hs.map (fun h => (h.modRange : Int) - (h.origRange : Int))).sum =
      ((((hs.map (fun h => h.modRange)).sum : Nat) : Int) -
        (((hs.map (fun h => h.origRange)).sum : Nat) : Int)) := by
  induction hs with
  | nil => simp
  | cons a t ihh =>
    simp only [List.map_cons, List.sum_cons, ihh]
    push_cast
    ring

/-- C2 counterexample: the claim says `apply_exact` succeeds *iff*
every Context and Remove payload equals the corresponding original
line.  For a well-formed patch whose single hunk is a pure insertion
(`@@ -3,0 +3,1 @@`, no Context or Remove lines at all) applied to an
empty original, the matching condition holds vacuously, yet the code
fails with a conflict: the catch-up loop of `PatchedIter::next` runs
out of original lines before reaching `orig_pos`. -/
theorem applyExact_pure_insert_counterexample :
    (hunkWF ⟨3, 0, 3, 1, none, [HunkLine.InsertLine (bytes "x\n")]⟩ ∧
     hunksChain [⟨3, 0, 3, 1, none, [HunkLine.InsertLine (bytes "x\n")]⟩] ∧
     ctxRemLines [HunkLine.InsertLine (bytes "x\n")] = []) ∧
    (⟨[], none, [], none, [⟨3, 0, 3, 1, none, [HunkLine.InsertLine (bytes "x\n")]⟩]⟩ :
      UnifiedPatch).applyExact (bytes "") = .error (.Conflict ⟨2, [], []⟩) := by
  refine ⟨⟨by decide, by simp [hunksChain], by decide⟩, ?_⟩
  simp [UnifiedPatch.applyExact, iterExactPatchedFromHunks, splitlines, splitlinesGo,
    bytes, patchedGo, headLines]

/-- C2 (amended): for every `UnifiedPatch` whose hunks are consistent
with their declared ranges, sorted by original position and
non-overlapping (`hunkWF` and `hunksChain`), `apply_exact(orig)`
succeeds if and only if every hunk *fits*: each Context and Remove
payload equals the corresponding original line byte-for-byte *and*
each hunk's start position does not lie beyond the end of the original
(`orig_pos ≤ line count + 1`; a pure-insertion hunk placed past the
end conflicts even though it has no Context/Remove lines).  On success
the number of output lines equals the original line count plus
Σ (mod_range − orig_range) over the hunks. -/
theorem applyExact_ok_iff (p : UnifiedPatch) (orig : ByteStr)
    (hwf : ∀ h ∈ p.hunks, hunkWF h) (hchain : hunksChain p.hunks) :
    ((∃ r, p.applyExact orig = .ok r) ↔ ∀ h ∈ p.hunks, hunkFits (splitlines orig) h) ∧
    (∀ out, iterExactPatchedFromHunks (splitlines orig) p.hunks = .ok out →
      (out.length : Int) = ((splitlines orig).length : Int) +
        (p.hunks.map (fun h => (h.modRange : Int) - (h.origRange : Int))).sum) := by
  have hstart : ∀ h0, p.hunks.head? = some h0 →
      1 ≤ h0.origPos ∨ (h0.origPos ≤ 1 ∧ 1 = 1) := by
    intro h0 _
    exact if hle : 1 ≤ h0.origPos then Or.inl hle else Or.inr ⟨by omega, rfl⟩
  have hrun := patchedGo_run p.hunks (splitlines orig) 1 hwf hchain (le_refl 1)
    (by simp) hstart
  simp only [Nat.sub_self, List.drop_zero] at hrun
  obtain ⟨hr1, hr2, _⟩ := hrun
  constructor
  · rw [← hr1]
    unfold UnifiedPatch.applyExact iterExactPatchedFromHunks
    cases patchedGo (splitlines orig) (headLines p.hunks) p.hunks 1 <;> simp
  · intro out hout
    have hlen := hr2 out hout
    have hrem : sumCtxRem p.hunks = (p.hunks.map (fun h => h.origRange)).sum := by
      unfold sumCtxRem
      congr 1
      exact List.map_congr_left (fun h hh => (hwf h hh).1)
    have hins : sumCtxIns p.hunks = (p.hunks.map (fun h => h.modRange)).sum := by
      unfold sumCtxIns
      congr 1
      exact List.map_congr_left (fun h hh => (hwf h hh).2.1)
    rw [sum_map_int_sub]
    rw [hrem, hins] at hlen
    have hc : ((out.length : Nat) : Int) + (((p.hunks.map (fun h => h.origRange)).sum : Nat) : Int) =
        (((splitlines orig).length : Nat) : Int) +
          (((p.hunks.map (fun h => h.modRange)).sum : Nat) : Int) := by
      exact_mod_cast hlen
    linarith

/-- C2 witness for the amended theorem. -/
theorem applyExact_ok_iff_witness :
    ((∀ h ∈ [(⟨1, 1, 1, 1, none, [HunkLine.RemoveLine (bytes "a\n"),
        HunkLine.InsertLine (bytes "b\n")]⟩ : Hunk)], hunkWF h) ∧
     hunksChain [⟨1, 1, 1, 1, none, [HunkLine.RemoveLine (bytes "a\n"),
        HunkLine.InsertLine (bytes "b\n")]⟩]) ∧
    (((∃ r, (⟨[], none, [], none, [⟨1, 1, 1, 1, none, [HunkLine.RemoveLine (bytes "a\n"),
        HunkLine.InsertLine (bytes "b\n")]⟩]⟩ : UnifiedPatch).applyExact (bytes "a\n") =
          .ok r) ↔
      ∀ h ∈ [(⟨1, 1, 1, 1, none, [HunkLine.RemoveLine (bytes "a\n"),
        HunkLine.InsertLine (bytes "b\n")]⟩ : Hunk)],
          hunkFits (splitlines (bytes "a\n")) h) ∧
    (∀ out, iterExactPatchedFromHunks (splitlines (bytes "a\n"))
        [⟨1, 1, 1, 1, none, [HunkLine.RemoveLine (bytes "a\n"),
          HunkLine.InsertLine (bytes "b\n")]⟩] = .ok out →
      (out.length : Int) = ((splitlines (bytes "a\n")).length : Int) +
        ([(⟨1, 1, 1, 1, none, [HunkLine.RemoveLine (bytes "a\n"),
          HunkLine.InsertLine (bytes "b\n")]⟩ : Hunk)].map
            (fun h => (h.modRange : Int) - (h.origRange : Int))).sum)) :=
  ⟨⟨by decide, by simp [hunksChain]⟩,
    applyExact_ok_iff
      ⟨[], none, [], none, [⟨1, 1, 1, 1, none, [HunkLine.RemoveLine (bytes "a\n"),
        HunkLine.InsertLine (bytes "b\n")]⟩]⟩
      (bytes "a\n") (by decide) (by simp [hunksChain])⟩

/-- C3 (amended): for a well-formed sorted non-overlapping hunk list,
whenever some Context or Remove payload differs from the corresponding
original line or a hunk extends past the end of the original (i.e. not
every hunk fits), `iter_exact_patched_from_hunks` yields a
`PatchConflict`; the conflict carries the 1-based line number, the
observed original line, and the expected payload — except that when
the original is exhausted before the failing hunk's start position the
conflict carries empty observed *and* expected fields (and when the
original is exhausted inside the hunk the observed field is empty and
the line number is one past the original's length). -/
theorem iterExact_conflict (hunks : List Hunk) (origLines : List ByteStr)
    (hwf : ∀ h ∈ hunks, hunkWF h) (hchain : hunksChain hunks)
    (hfail : ¬ ∀ h ∈ hunks, hunkFits origLines h) :
    ∃ c, iterExactPatchedFromHunks origLines hunks = .error c ∧
      (c = ⟨origLines.length + 2, [], []⟩ ∨
       ∃ h ∈ hunks, ∃ j, (ctxRemLines h.lines).get? j = some c.patchLine ∧
         c.lineNo = h.origPos + j ∧
         ((origLines.get? (c.lineNo - 1) = some c.origLine ∧ c.origLine ≠ c.patchLine) ∨
          (c.origLine = [] ∧ c.lineNo = origLines.length + 1))) := by
  have hstart : ∀ h0, hunks.head? = some h0 →
      1 ≤ h0.origPos ∨ (h0.origPos ≤ 1 ∧ 1 = 1) := by
    intro h0 _
    exact if hle : 1 ≤ h0.origPos then Or.inl hle else Or.inr ⟨by omega, rfl⟩
  have hrun := patchedGo_run hunks origLines 1 hwf hchain (le_refl 1) (by simp) hstart
  simp only [Nat.sub_self, List.drop_zero] at hrun
  obtain ⟨hr1, _, hr3⟩ := hrun
  cases hres : patchedGo origLines (headLines hunks) hunks 1 with
  | ok out => exact absurd (hr1.mp ⟨out, hres⟩) hfail
  | error c => exact ⟨c, hres, hr3 c hres⟩

/-- C3 witness for the amended theorem. -/
theorem iterExact_conflict_witness :
    ((∀ h ∈ [(⟨1, 1, 1, 1, none, [HunkLine.RemoveLine (bytes "x\n"),
        HunkLine.InsertLine (bytes "b\n")]⟩ : Hunk)], hunkWF h) ∧
     hunksChain [⟨1, 1, 1, 1, none, [HunkLine.RemoveLine (bytes "x\n"),
        HunkLine.InsertLine (bytes "b\n")]⟩] ∧
     ¬ ∀ h ∈ [(⟨1, 1, 1, 1, none, [HunkLine.RemoveLine (bytes "x\n"),
        HunkLine.InsertLine (bytes "b\n")]⟩ : Hunk)], hunkFits [bytes "y\n"] h) ∧
    (∃ c, iterExactPatchedFromHunks [bytes "y\n"]
        [⟨1, 1, 1, 1, none, [HunkLine.RemoveLine (bytes "x\n"),
          HunkLine.InsertLine (bytes "b\n")]⟩] = .error c ∧
      (c = ⟨[bytes "y\n"].length + 2, [], []⟩ ∨
       ∃ h ∈ [(⟨1, 1, 1, 1, none, [HunkLine.RemoveLine (bytes "x\n"),
          HunkLine.InsertLine (bytes "b\n")]⟩ : Hunk)],
         ∃ j, (ctxRemLines h.lines).get? j = some c.patchLine ∧
           c.lineNo = h.origPos + j ∧
           (([bytes "y\n"].get? (c.lineNo - 1) = some c.origLine ∧
             c.origLine ≠ c.patchLine) ∨
            (c.origLine = [] ∧ c.lineNo = [bytes "y\n"].length + 1)))) :=
  ⟨⟨by decide, by simp [hunksChain], by decide⟩,
    iterExact_conflict
      [⟨1, 1, 1, 1, none, [HunkLine.RemoveLine (bytes "x\n"),
        HunkLine.InsertLine (bytes "b\n")]⟩]
      [bytes "y\n"] (by decide) (by simp [hunksChain]) (by decide)⟩

/-- C4: For every hunk whose line sequence is consistent with its
declared ranges (Context+Remove count = orig_range, Context+Insert
count = mod_range; a well-formed hunk also has `orig_pos ≥ 1`, which
the data-model invariant requires and which keeps `orig_pos - 1` from
underflowing), `shift_to_mod` returns `Some 0` for every position
strictly before `orig_pos - 1` and `Some (mod_range - orig_range)` for
every position strictly after `orig_pos + orig_range - 1`. -/
theorem shiftToMod_outside (h : Hunk)
    (hor : (ctxRemLines h.lines).length = h.origRange)
    (hmr : (ctxInsLines h.lines).length = h.modRange)
    (hpos : 1 ≤ h.origPos) :
    (∀ pos, pos + 1 < h.origPos → h.shiftToMod pos = some 0) ∧
    (∀ pos, h.origPos + h.origRange ≤ pos →
      h.shiftToMod pos = some ((h.modRange : Int) - (h.origRange : Int))) := by
  constructor
  · intro pos hlt
    unfold Hunk.shiftToMod
    rw [if_pos (by omega)]
  · intro pos hge
    unfold Hunk.shiftToMod
    rw [if_neg (by omega)]
    by_cases hgt : pos > h.origPos + h.origRange
    · rw [if_pos hgt]
    · rw [if_neg hgt]
      unfold Hunk.shiftToModLines
      rw [shiftToModLinesGo_all pos h.lines (h.origPos - 1) 0 (by omega)]
      rw [hor, hmr]
      simp

/-- C4 witness: the theorem applied to a concrete consistent hunk. -/
theorem shiftToMod_outside_witness :
    ((ctxRemLines [HunkLine.ContextLine (bytes "x\n"), HunkLine.RemoveLine (bytes "y\n")]).length = 2 ∧
     (ctxInsLines [HunkLine.ContextLine (bytes "x\n"), HunkLine.RemoveLine (bytes "y\n")]).length = 1 ∧
     1 ≤ 3) ∧
    (Hunk.shiftToMod ⟨3, 2, 3, 1, none,
        [HunkLine.ContextLine (bytes "x\n"), HunkLine.RemoveLine (bytes "y\n")]⟩ 1 = some 0 ∧
     Hunk.shiftToMod ⟨3, 2, 3, 1, none,
        [HunkLine.ContextLine (bytes "x\n"), HunkLine.RemoveLine (bytes "y\n")]⟩ 6 =
       some ((1 : Int) - 2)) :=
  ⟨⟨by decide, by decide, by decide⟩,
    ⟨(shiftToMod_outside _ (by decide) (by decide) (by decide)).1 1 (by decide),
     (shiftToMod_outside _ (by decide) (by decide) (by decide)).2 6 (by decide)⟩⟩

/-- C9: For every `BinaryPatch` and every original content,
`apply_exact` returns the `Unapplyable` error; a binary patch is never
applied. -/
theorem binaryPatch_applyExact_unapplyable (b : BinaryPatch) (orig : ByteStr) :
    b.applyExact orig = .error .Unapplyable := rfl

/-- C6: the claim says `Hunk::from_header` returns a
`MalformedHunkHeader` error (never succeeds or panics) on every line
lacking the leading `-`/`+` sign on a range.  The code contradicts
this: on `"@@  + @@\n"`, whose original range component is empty (so
its leading `-` is missing), the unchecked `orig[0]` indexing in
`src/patch.rs` panics instead of returning the error. -/
theorem fromHeader_empty_component_panics :
    Hunk.fromHeader (bytes "@@  + @@\n") = .panic := by rfl

/-- C10: feeding `iter_file_patch` the hunk header `@@ -1,0 +1,1 @@`
followed by the body line `-x` makes the splitter decrement the
remaining original count, which is already zero: the unguarded
`orig_range -= 1` usize subtraction overflows (a panic in debug
builds, modelled as `none`) instead of producing an error entry. -/
theorem iterFilePatch_underflow_panics :
    iterFilePatch [bytes "@@ -1,0 +1,1 @@\n", bytes "-x\n"] = none := by rfl

/-- C3 counterexample: the claim says every conflict carries the
expected payload (with the observed line empty when the original is
exhausted).  For a consistent hunk whose `orig_pos` lies beyond the
end of the original (`orig_pos = 3`, original `["a\n"]`), the code
yields a conflict whose expected-payload field is *empty*, not the
hunk's expected payload `"x\n"` (see the catch-up branch of
`PatchedIter::next`, which builds the conflict with
`patch_line: Vec::new()`). -/
theorem patchConflict_eof_counterexample :
    ((ctxRemLines [HunkLine.RemoveLine (bytes "x\n")]).length = 1 ∧
     (ctxInsLines [HunkLine.RemoveLine (bytes "x\n")]).length = 0) ∧
    iterExactPatchedFromHunks [bytes "a\n"]
        [⟨3, 1, 3, 0, none, [HunkLine.RemoveLine (bytes "x\n")]⟩] =
      .error ⟨3, [], []⟩ ∧
    ([] : ByteStr) ≠ bytes "x\n" := by
  refine ⟨⟨by decide, by decide⟩, ?_, by decide⟩
  simp [iterExactPatchedFromHunks, patchedGo, headLines, bytes, Except.map]

/-- C5 counterexample: the claim says that whenever `h.as_bytes()`
parses without error, `from_header(h.get_header())` yields a hunk with
the same tail.  For the hunk `@@ -1 +1,2 @@` with tail `"x\n a"`
(which contains a newline) and line list `[Insert "b\n"]`, the
serialized bytes parse cleanly through the `iter_lines_handle_nl` +
`iter_hunks` pipeline, yet re-parsing the header truncates the tail at
the embedded newline, giving tail `"x"` instead of `"x\n a"`. -/
theorem fromHeader_getHeader_counterexample :
    hunkParsesClean ⟨1, 1, 1, 2, some (bytes "x\n a"),
        [HunkLine.InsertLine (bytes "b\n")]⟩ = true ∧
    Hunk.fromHeader (Hunk.getHeader ⟨1, 1, 1, 2, some (bytes "x\n a"),
        [HunkLine.InsertLine (bytes "b\n")]⟩) =
      .ok ⟨1, 1, 1, 2, some (bytes "x"), []⟩ ∧
    some (bytes "x") ≠ some (bytes "x\n a") := by
  refine ⟨?_, ?_, by decide⟩
  · simp [hunkParsesClean, iterHunksGo, Hunk.asBytes, Hunk.getHeader,
      Hunk.rangeStr, natToDigits, natToDigitsGo, bytes, splitlines, splitlinesGo,
      iterLinesHandleNl, iterLinesHandleNlGo, NO_NL, HunkLine.asBytes, HunkLine.char,
      HunkLine.contents, HunkLine.parseLine, Hunk.fromHeader, fromHeaderMatch,
      fromHeaderTryAt, splitAtByte, splitOnByte, parseRange, parseUsize, digitsVal,
      isDigitByte, utf8Lossy, utf8LossyGo, utf8Rep, isCont]
  · simp [Hunk.getHeader, Hunk.rangeStr, natToDigits, natToDigitsGo, bytes,
      Hunk.fromHeader, fromHeaderMatch, fromHeaderTryAt, splitAtByte, splitOnByte,
      parseRange, parseUsize, digitsVal, isDigitByte, utf8Lossy, utf8LossyGo, utf8Rep, isCont]

/-- C5 (amended): for every hunk `h` whose tail is free of newline
bytes and is valid UTF-8 (left unchanged by the lossy conversion that
`get_header` applies via `String::from_utf8_lossy`), and whose four
range fields fit in a `usize`,
`Hunk::from_header(h.get_header())` succeeds and yields a hunk equal
to `h` in `orig_pos`, `orig_range`, `mod_pos`, `mod_range` and `tail`,
with an empty line list.  (The parse-clean hypothesis of the original
claim does not rule out newlines in the tail; see the counterexample.
A non-UTF-8 tail byte would likewise be rewritten to U+FFFD in the
serialized header and fail to round-trip.) -/
theorem fromHeader_getHeader (h : Hunk)
    (htail : ∀ t, h.tail = some t → ¬ 10 ∈ t)
    (hloss : ∀ t, h.tail = some t → utf8Lossy t = t)
    (hb1 : h.origPos < 2 ^ 64) (hb2 : h.origRange < 2 ^ 64)
    (hb3 : h.modPos < 2 ^ 64) (hb4 : h.modRange < 2 ^ 64) :
    Hunk.fromHeader h.getHeader =
      .ok ⟨h.origPos, h.origRange, h.modPos, h.modRange, h.tail, []⟩ := by
  have h32R1 : ¬ (32 : Nat) ∈ Hunk.rangeStr h.origPos h.origRange :=
    notMem_rangeStr_of_special (by omega) (by omega)
  have h32R2 : ¬ (32 : Nat) ∈ Hunk.rangeStr h.modPos h.modRange :=
    notMem_rangeStr_of_special (by omega) (by omega)
  have hsplit : splitOnByte 32 (45 :: (Hunk.rangeStr h.origPos h.origRange ++
      32 :: 43 :: Hunk.rangeStr h.modPos h.modRange)) =
      [45 :: Hunk.rangeStr h.origPos h.origRange,
       43 :: Hunk.rangeStr h.modPos h.modRange] := by
    have hshape : 45 :: (Hunk.rangeStr h.origPos h.origRange ++
        32 :: 43 :: Hunk.rangeStr h.modPos h.modRange) =
        (45 :: Hunk.rangeStr h.origPos h.origRange) ++
          32 :: (43 :: Hunk.rangeStr h.modPos h.modRange) := by simp
    rw [hshape, splitOnByte_append (by
      intro hm
      rcases List.mem_cons.mp hm with hm | hm
      · omega
      · exact h32R1 hm)]
    rw [splitOnByte_no_sep (by
      intro hm
      rcases List.mem_cons.mp hm with hm | hm
      · omega
      · exact h32R2 hm)]
  unfold Hunk.fromHeader
  rw [fromHeaderMatch_getHeader h htail hloss]
  simp [hsplit, parseRange_rangeStr hb1 hb2, parseRange_rangeStr hb3 hb4]

/-- C5 witness for the amended theorem. -/
theorem fromHeader_getHeader_witness :
    Hunk.fromHeader (Hunk.getHeader ⟨1, 2, 3, 4, some (bytes "fn f"), []⟩) =
      .ok ⟨1, 2, 3, 4, some (bytes "fn f"), []⟩ :=
  fromHeader_getHeader ⟨1, 2, 3, 4, some (bytes "fn f"), []⟩
    (by intro t ht; injection ht with hh; subst hh; decide)
    (by intro t ht; injection ht with hh; subst hh; decide)
    (by decide) (by decide) (by decide) (by decide)

/-- C7 counterexample: the claim says `EdPatch::apply` of
`Add(start, end, lines)` inserts the new content *after* the 1-based
position `start`.  Applying `Add(1, 1, "hello\n")` to `["world\n"]`
would then give `"world\nhello\n"`; the code instead produces
`"hello\nworld\n"` (it inserts at index `start - 1`, i.e. *before*
position `start`), as its own unit test `test_apply_add` confirms. -/
theorem edApply_add_counterexample :
    EdPatch.apply ⟨[.Add 1 1 (bytes "hello\n")]⟩ [bytes "world\n"] =
      .ok (bytes "hello\nworld\n") ∧
    bytes "hello\nworld\n" ≠ bytes "world\nhello\n" := by
  constructor
  · rfl
  · decide

/-- C7 (amended): `EdPatch::apply` of an `Add(start, end, lines)` hunk
with `start = end` and `1 ≤ start ≤ len + 1` inserts the new content
*before* the given 1-based position `start` (equivalently, after
position `start - 1`); position 1 means prepend, and position 0 panics
(usize underflow) instead of prepending. -/
theorem edApply_add_inserts_before (s : Nat) (l : ByteStr) (data : List ByteStr) :
    (1 ≤ s → s - 1 ≤ data.length →
      EdPatch.apply ⟨[.Add s s l]⟩ data =
        .ok ((data.take (s - 1) ++ l :: data.drop (s - 1)).flatten)) ∧
    EdPatch.apply ⟨[.Add 0 0 l]⟩ data = .panic := by
  constructor
  · intro h1 h2
    have hs : ¬ s = 0 := by omega
    have hlt : ¬ data.length < s - 1 := by omega
    simp only [EdPatch.apply, edApplyGo, edInsertPhase, ne_eq, not_true_eq_false, if_neg, hs,
      if_false, hlt, ite_false, ite_true, reduceIte, EdResult.bind]
    rw [insertIdx_eq_take_cons_drop _ _ _ (by omega)]
  · rfl

/-- C7 witness for the amended theorem. -/
theorem edApply_add_inserts_before_witness :
    (1 ≤ 2 ∧ 2 - 1 ≤ [bytes "a\n", bytes "b\n"].length) ∧
    EdPatch.apply ⟨[.Add 2 2 (bytes "x\n")]⟩ [bytes "a\n", bytes "b\n"] =
      .ok (([bytes "a\n", bytes "b\n"].take 1 ++
        bytes "x\n" :: [bytes "a\n", bytes "b\n"].drop 1).flatten) :=
  ⟨⟨by decide, by decide⟩,
    (edApply_add_inserts_before 2 (bytes "x\n") [bytes "a\n", bytes "b\n"]).1
      (by decide) (by decide)⟩

/-- C8: removing the patch entry `p1` from the series file parsed
from `"# Header\np1\n# Mid\np2\n# Foot\n"` produces a tree whose
serialized bytes equal `"# Header\n# Mid\np2\n# Foot\n"`:
`SeriesFile::remove` deletes only the named patch entry's bytes
(including its trailing newline, which the parser put inside its
`PATCH_ENTRY` node) and leaves every comment line and every other
entry unchanged. -/
theorem seriesRemove_preserves_comments :
    (seriesRemove ("p1".toList)
        (parseSeries ("# Header\np1\n# Mid\np2\n# Foot\n".toList))).map QTree.text =
      some ("# Header\n# Mid\np2\n# Foot\n".toList) := by rfl

/-- C1: for every input string `s`, concatenating the texts of all
tokens of the tree produced by the lossless patch parser
(`edit::lossless::parse`) in left-to-right preorder yields exactly
`s`, including when `s` is malformed: the lexer's tokens concatenate
back to `s`, and every parser path — file headers with their fused
`PATH` tokens, hunks, context diffs, ed and normal diffs, and the
skip-line recovery paths — emits the text of every token it
consumes. -/
theorem losslessParse_roundtrip (s : List Char) : PTree.text (losslessParse s) = s := by
  unfold losslessParse
  rw [text_node]
  have h1 := parsePatchGo_text ((lex s).length + 1) (lex s)
  have h2 := parsePatchGo_rest ((lex s).length + 1) (lex s) (by omega)
  rw [h2, tokText_nil, List.append_nil] at h1
  rw [h1, lex_text]

end Patchkit
